import Mathlib

/-!
Verification of the FlexToolsMCP core: navigation-graph path resolver,
lexical search ranking, suffix-index resolution, and the pattern-learning
store, shallowly embedded from `src/server.py`, `src/build_navigation_graph.py`
and `src/liblcm_extractor.py`.
-/

namespace FlexTools

/-- A directed edge of the navigation graph, as stored in the adjacency list
`graph[entity] = [(target_type, prop_name, rel_type), ...]`
built by `build_navigation_graph.extract_relationships`. -/
structure Edge where
  target : String
  via : String
  relType : String
deriving DecidableEq, Repr

/-- One step of a returned navigation path, as built by `find_path_bfs`:
`{"from": current, "to": target, "via": via, "type": rel_type}`. -/
structure Step where
  «from» : String
  «to» : String
  via : String
  type : String
deriving DecidableEq, Repr

/-- The navigation graph: an association list mirroring the Python dict
`entity -> [(target, via, rel_type)]`.  Python dict keys are unique and
iteration follows insertion order, which the list order models. -/
def Graph := List (String × List Edge)

/-- `graph.get(current, [])` in `find_path_bfs`. -/
def Graph.edgesFrom (g : Graph) (v : String) : List Edge :=
  match g.lookup v with
  | some es => es
  | none => []

/-! ## Association-list model of Python dicts

Python dict semantics used by the tracker: unique keys, iteration in
insertion order, `d[k] = v` updates in place, a fresh key is appended at
the end.  An association list in insertion order models this. -/

/-- `d.get(k)` on an association list (first matching key). -/
def lookupA (k : String) : List (String × β) → Option β
  | [] => none
  | (k', v) :: rest => if k' = k then some v else lookupA k rest

/-- `if k not in d: d[k] = dflt` followed by `d[k] = f(d[k])`:
update the entry in place, or append `(k, f dflt)` for a fresh key. -/
def updateA (k : String) (dflt : β) (f : β → β) : List (String × β) → List (String × β)
  | [] => [(k, f dflt)]
  | (k', v) :: rest =>
    if k' = k then (k', f v) :: rest else (k', v) :: updateA k dflt f rest

/-! ## Error-message normalization (`PatternTracker._normalize_error`)

The Python code applies three `re.sub` substitutions in order and then
truncates to 100 characters.  Each regex (`0x[0-9a-fA-F]+`, `line \d+`,
`'[^']{20,}'`) is a literal prefix followed by a greedy character run, so
`re.sub`'s leftmost scan is an exact left-to-right maximal-munch scan:
at each position, if the pattern matches there, emit the replacement and
resume after the match; otherwise emit one character and move on.  The
scanners below implement exactly that. -/

/-- `[0-9a-fA-F]`, the character class of `0x[0-9a-fA-F]+`. -/
def isHexDig (c : Char) : Bool :=
  c.isDigit || (('a' ≤ c) && (c ≤ 'f')) || (('A' ≤ c) && (c ≤ 'F'))

/-- The apostrophe character `'` of the quoted-literal regex. -/
def quoteChar : Char := Char.ofNat 39

/-- Attempted match of `0x[0-9a-fA-F]+` at the head of the input: on
success, the remainder after the greedy hex run. -/
def hexMatch : List Char → Option (List Char)
  | '0' :: 'x' :: d :: rest =>
    if isHexDig d then some ((d :: rest).dropWhile isHexDig) else none
  | _ => none

theorem hexMatch_some_length : ∀ {l r : List Char}, hexMatch l = some r →
    r.length < l.length := by
  intro l r h
  unfold hexMatch at h
  split at h
  · split at h
    · obtain rfl : List.dropWhile isHexDig _ = r := by simpa using h
      next d rest _ =>
      have h2 := (List.dropWhile_sublist (p := isHexDig) (l := d :: rest)).length_le
      simp at h2 ⊢
      omega
    · simp at h
  · simp at h

/-- `re.sub(r'0x[0-9a-fA-F]+', '0x...', s)`: replace each leftmost
`0x` followed by a maximal non-empty run of hex digits. -/
def subHex : List Char → List Char
  | [] => []
  | c :: cs =>
    match h : hexMatch (c :: cs) with
    | some rest => '0' :: 'x' :: '.' :: '.' :: '.' :: subHex rest
    | none => c :: subHex cs
termination_by l => l.length
decreasing_by
  · exact hexMatch_some_length h
  · simp

/-- Attempted match of `line \d+` at the head of the input. -/
def lineMatch : List Char → Option (List Char)
  | 'l' :: 'i' :: 'n' :: 'e' :: ' ' :: d :: rest =>
    if d.isDigit then some ((d :: rest).dropWhile Char.isDigit) else none
  | _ => none

theorem lineMatch_some_length : ∀ {l r : List Char}, lineMatch l = some r →
    r.length < l.length := by
  intro l r h
  unfold lineMatch at h
  split at h
  · split at h
    · obtain rfl : List.dropWhile Char.isDigit _ = r := by simpa using h
      next d rest _ =>
      have h2 := (List.dropWhile_sublist (p := Char.isDigit) (l := d :: rest)).length_le
      simp at h2 ⊢
      omega
    · simp at h
  · simp at h

/-- `re.sub(r'line \d+', 'line N', s)`: replace each leftmost
`line ` followed by a maximal non-empty digit run. -/
def subLine : List Char → List Char
  | [] => []
  | c :: cs =>
    match h : lineMatch (c :: cs) with
    | some rest => 'l' :: 'i' :: 'n' :: 'e' :: ' ' :: 'N' :: subLine rest
    | none => c :: subLine cs
termination_by l => l.length
decreasing_by
  · exact lineMatch_some_length h
  · simp

/-- Attempted match of `'[^']{20,}'` at the head of the input: an
apostrophe whose maximal following run of non-apostrophe characters has
length at least 20 and is closed by another apostrophe. -/
def quoteMatch : List Char → Option (List Char)
  | [] => none
  | c :: cs =>
    if c = quoteChar then
      match cs.dropWhile (· ≠ quoteChar) with
      | _ :: rest =>
        if 20 ≤ (cs.takeWhile (· ≠ quoteChar)).length then some rest else none
      | [] => none
    else none

theorem quoteMatch_cons (c : Char) (cs : List Char) :
    quoteMatch (c :: cs) =
      if c = quoteChar then
        match cs.dropWhile (· ≠ quoteChar) with
        | _ :: rest =>
          if 20 ≤ (cs.takeWhile (· ≠ quoteChar)).length then some rest else none
        | [] => none
      else none := rfl

theorem quoteMatch_some_length : ∀ {l r : List Char}, quoteMatch l = some r →
    r.length < l.length := by
  intro l r h
  match l with
  | [] => simp [quoteMatch] at h
  | c :: cs =>
    rw [quoteMatch_cons] at h
    split at h
    · cases hdw : cs.dropWhile (· ≠ quoteChar) with
      | nil => rw [hdw] at h; simp at h
      | cons q0 rest0 =>
        rw [hdw] at h
        simp only at h
        split at h
        · obtain rfl : rest0 = r := by simpa using h
          have h2 := (List.dropWhile_sublist (p := fun x => decide (x ≠ quoteChar))
            (l := cs)).length_le
          rw [hdw] at h2
          simp at h2 ⊢
          omega
        · simp at h
    · simp at h

/-- `re.sub(r"'[^']{20,}'", "'...'", s)`: replace each leftmost long
closed quoted literal. -/
def subQuote : List Char → List Char
  | [] => []
  | c :: cs =>
    match h : quoteMatch (c :: cs) with
    | some rest =>
      quoteChar :: '.' :: '.' :: '.' :: quoteChar :: subQuote rest
    | none => c :: subQuote cs
termination_by l => l.length
decreasing_by
  · exact quoteMatch_some_length h
  · simp

/-- `PatternTracker._normalize_error`: hex addresses, then `line N`
markers, then long quoted literals, then the first 100 characters. -/
def normalize_error (msg : String) : String :=
  String.mk ((subQuote (subLine (subHex msg.toList))).take 100)

/-! ## Pattern-learning store (`PatternTracker`) -/

/-- Value of one `common_errors[error_type]` histogram cell. -/
structure CommonError where
  count : Nat
  «example» : String
deriving DecidableEq, Repr

/-- Per-pattern statistics, `patterns["api_patterns"][api_call]`. -/
structure ApiPattern where
  success_count : Nat
  failure_count : Nat
  last_used : Option String
  common_errors : List (String × CommonError)
deriving DecidableEq, Repr

/-- Fresh `api_patterns` entry created on first observation. -/
def ApiPattern.init : ApiPattern :=
  { success_count := 0, failure_count := 0, last_used := none, common_errors := [] }

/-- One retained example of `error_patterns[key]["examples"]`. -/
structure ErrorExample where
  code : String
  error : String
  timestamp : String
deriving DecidableEq, Repr

/-- One error bucket, `patterns["error_patterns"][error_key]`. -/
structure ErrorPattern where
  count : Nat
  examples : List ErrorExample
  api_calls : List String
  first_seen : String
  potential_fix : Option String
deriving DecidableEq, Repr

/-- Fresh error bucket created on first observation (`first_seen = now`). -/
def ErrorPattern.init (now : String) : ErrorPattern :=
  { count := 0, examples := [], api_calls := [], first_seen := now, potential_fix := none }

/-- The whole persisted store `PatternTracker.patterns`. -/
structure Patterns where
  api_patterns : List (String × ApiPattern)
  error_patterns : List (String × ErrorPattern)
deriving DecidableEq, Repr

/-- The store of a fresh load with no file: `{"api_patterns": {}, "error_patterns": {}}`. -/
def Patterns.empty : Patterns := { api_patterns := [], error_patterns := [] }

/-- Python truthiness of the optional `error_msg` string (`None` and `""` are falsy). -/
def strTruthy : Option String → Bool
  | none => false
  | some s => !(s == "")

/-- Per-key update of `record_operation`: set `last_used`, bump the
success or failure counter, and on failure with an `error_type` bump that
histogram cell (retaining `error_msg[:200]` when the message is truthy). -/
def recordApiCall (success : Bool) (errorMsg errorType : Option String) (now : String)
    (p : ApiPattern) : ApiPattern :=
  let p := { p with last_used := some now }
  if success then
    { p with success_count := p.success_count + 1 }
  else
    let p := { p with failure_count := p.failure_count + 1 }
    match errorType with
    | none => p
    | some et =>
      let bump : CommonError → CommonError := fun ce =>
        let ce := { ce with count := ce.count + 1 }
        if strTruthy errorMsg then
          { ce with «example» := (errorMsg.getD "").take 200 }
        else ce
      { p with common_errors :=
          updateA et { count := 0, «example» := "" } bump p.common_errors }

/-- The error-bucket update of `record_operation`: bump the count, retain
an example only while fewer than 3 are stored, and add each extracted api
call not yet associated with the bucket. -/
def updateBucket (apiCalls : List String) (code m now : String)
    (b : ErrorPattern) : ErrorPattern :=
  let b := { b with count := b.count + 1 }
  let b :=
    if b.examples.length < 3 then
      { b with examples := b.examples ++ [{ code := code.take 500, error := m.take 500, timestamp := now }] }
    else b
  { b with api_calls :=
      apiCalls.foldl (fun acc c => if c ∈ acc then acc else acc ++ [c]) b.api_calls }

/-- `PatternTracker.record_operation(code, success, error_msg, error_type)`.

The Python method first computes `api_calls = self.extract_api_calls(code)`
(a regex scan of the code text) and then uses only that list; the model
takes the extracted list as the `apiCalls` argument.  `now` stands for
`datetime.now().isoformat()`. -/
def record_operation (apiCalls : List String) (code : String) (success : Bool)
    (errorMsg errorType : Option String) (now : String) (p : Patterns) : Patterns :=
  let apiPats :=
    apiCalls.foldl
      (fun d call => updateA call ApiPattern.init (recordApiCall success errorMsg errorType now) d)
      p.api_patterns
  let errPats :=
    if !success && strTruthy errorMsg then
      let m := errorMsg.getD ""
      updateA (normalize_error m) (ErrorPattern.init now) (updateBucket apiCalls code m now)
        p.error_patterns
    else p.error_patterns
  { api_patterns := apiPats, error_patterns := errPats }

/-! ## Navigation path finding (`find_path_bfs`, `find_path`,
`normalize_object_name`, `precompute_common_paths`,
`handle_get_navigation_path`) -/

/-- A queue entry of the BFS deque: `(current, path)`. -/
abbrev QItem := String × List Step

/-- The step dict appended to a path:
`{"from": current, "to": target, "via": via, "type": rel_type}`. -/
def mkStep (current : String) (e : Edge) : Step :=
  { «from» := current, «to» := e.target, via := e.via, type := e.relType }

/-- The inner `for edge in graph.get(current, [])` loop of the BFS: return
the closing path at the first edge reaching `endName`, otherwise enqueue
each unvisited target (marking it visited at enqueue time) and report the
grown visited set and the freshly enqueued items. -/
def expandEdges (endName current : String) (path : List Step) :
    List Edge → List String → List QItem → (List Step) ⊕ (List String × List QItem)
  | [], visited, acc => Sum.inr (visited, acc)
  | e :: es, visited, acc =>
    if e.target = endName then Sum.inl (path ++ [mkStep current e])
    else if e.target ∈ visited then expandEdges endName current path es visited acc
    else
      expandEdges endName current path es (visited ++ [e.target])
        (acc ++ [(e.target, path ++ [mkStep current e])])

/-- The `while queue:` loop of `find_path_bfs`.  `fuel` bounds the number
of iterations; the wrapper passes enough fuel for the loop to run to
completion (each iteration pops one entry, and at most `1 + totalEdges`
entries are ever enqueued because a node enters the queue only when first
added to `visited`). -/
def bfsLoop (g : Graph) (endName : String) (maxDepth : Nat) :
    Nat → List QItem → List String → Option (List Step)
  | 0, _, _ => none
  | _ + 1, [], _ => none
  | fuel + 1, (current, path) :: rest, visited =>
    if maxDepth ≤ path.length then bfsLoop g endName maxDepth fuel rest visited
    else
      match expandEdges endName current path (g.edgesFrom current) visited [] with
      | Sum.inl res => some res
      | Sum.inr (visited', newItems) =>
        bfsLoop g endName maxDepth fuel (rest ++ newItems) visited'

/-- Total number of adjacency-list entries of the graph. -/
def Graph.totalEdges (g : Graph) : Nat := (g.map (fun kv => kv.2.length)).sum

/-- `find_path_bfs(graph, start, end, max_depth=5)` of `server.py`:
`start == end` short-circuits to the empty path, otherwise BFS with a
visited set seeded with `start`. -/
def find_path_bfs (g : Graph) (start endName : String) (maxDepth : Nat := 5) :
    Option (List Step) :=
  if start = endName then some []
  else bfsLoop g endName maxDepth (g.totalEdges + 2) [(start, [])] [start]

/-- `Operations` removal of `normalize_object_name`: Python
`name.replace("Operations", "")` removes every leftmost, non-overlapping
occurrence. -/
def removeOps : List Char → List Char
  | 'O' :: 'p' :: 'e' :: 'r' :: 'a' :: 't' :: 'i' :: 'o' :: 'n' :: 's' :: rest =>
    removeOps rest
  | c :: cs => c :: removeOps cs
  | [] => []

/-- `normalize_object_name` of `server.py`: strip `Operations`, then
prepend `I` unless the name already starts with it. -/
def normalize_object_name (name : String) : String :=
  match removeOps name.toList with
  | 'I' :: l => String.mk ('I' :: l)
  | l => String.mk ('I' :: l)

/-- The inner `normalize` of `build_navigation_graph.find_path`: prepend
`I` unless the name already starts with it. -/
def normalizeI (name : String) : String :=
  match name.toList with
  | 'I' :: _ => name
  | l => String.mk ('I' :: l)

/-- `build_navigation_graph.find_path(graph, start, end, max_depth=5)`:
the `start == end` check precedes normalization; BFS then runs on the
normalized names.  The loop body is identical to `find_path_bfs`. -/
def find_path (g : Graph) (start endName : String) (maxDepth : Nat := 5) :
    Option (List Step) :=
  if start = endName then some []
  else
    let s := normalizeI start
    let e := normalizeI endName
    bfsLoop g e maxDepth (g.totalEdges + 2) [(s, [])] [s]

/-- `step["to"].lower().replace("i", "", 1)`: lowercase, then drop the
first `i`. -/
def removeFirst (c : Char) : List Char → List Char
  | [] => []
  | x :: xs => if x = c then xs else x :: removeFirst c xs

/-- Variable name derived from an entity name in the generated code. -/
def varName (s : String) : String :=
  String.mk (removeFirst 'i' (s.toList.map Char.toLower))

/-- `prop.endswith(("OS","OC","RC","RS"))` test of the code generators. -/
def isCollectionProp (prop : String) : Bool :=
  prop.endsWith "OS" || prop.endsWith "OC" || prop.endsWith "RC" || prop.endsWith "RS"

/-- Line accumulation of `generate_code_from_path` /
`generate_code_pattern` (the two copies emit identical text). -/
def genLines : List Step → String → String → List String
  | [], indent, currentVar => [indent ++ "# work with " ++ currentVar]
  | step :: rest, indent, currentVar =>
    if isCollectionProp step.via then
      let itemVar := varName step.«to»
      (indent ++ "for " ++ itemVar ++ " in " ++ currentVar ++ "." ++ step.via ++ ":") ::
        genLines rest (indent ++ "    ") itemVar
    else
      let newVar := varName step.«to»
      (indent ++ newVar ++ " = " ++ currentVar ++ "." ++ step.via) ::
        genLines rest indent newVar

/-- `generate_code_from_path(steps)` (`server.py`), identical in output to
`generate_code_pattern(path)` (`build_navigation_graph.py`). -/
def generate_code_from_path (steps : List Step) : String :=
  match steps with
  | [] => ""
  | s :: _ => String.intercalate "\n" (genLines steps "" (varName s.«from»))

/-- A value of the precomputed `common_paths` map. -/
structure PathInfo where
  steps : List Step
  code_pattern : String
deriving DecidableEq, Repr

/-- The frozen `common_pairs` list of `precompute_common_paths`. -/
def common_pairs : List (String × String) :=
  [("ILexEntry", "ILexSense"),
   ("ILexEntry", "ILexExampleSentence"),
   ("ILexEntry", "IMoForm"),
   ("ILexSense", "ILexExampleSentence"),
   ("ILexSense", "ICmSemanticDomain"),
   ("ILexDb", "ILexEntry"),
   ("ILexEntry", "ILexEtymology"),
   ("ILexEntry", "ILexPronunciation"),
   ("ILexEntry", "ILexReference"),
   ("ILexEntry", "ILexEntryRef"),
   ("ILexSense", "ICmPicture"),
   ("ILexSense", "ILexEntryRef"),
   ("IMoForm", "IMoMorphType"),
   ("IText", "IStText"),
   ("IStText", "IStTxtPara"),
   ("IStTxtPara", "ISegment"),
   ("ISegment", "IAnalysis"),
   ("IText", "ISegment"),
   ("IWfiWordform", "IWfiAnalysis"),
   ("IWfiAnalysis", "IWfiGloss"),
   ("IWfiAnalysis", "IWfiMorphBundle"),
   ("IWfiMorphBundle", "IMoForm"),
   ("IWfiMorphBundle", "ILexSense"),
   ("IWfiWordform", "IWfiGloss"),
   ("IMoInflAffixSlot", "IMoInflAffMsa"),
   ("IMoMorphData", "IMoMorphType"),
   ("IMoStemMsa", "IPartOfSpeech"),
   ("IMoInflAffMsa", "IPartOfSpeech"),
   ("IReversalIndex", "IReversalIndexEntry"),
   ("IReversalIndexEntry", "ILexSense"),
   ("ICmPossibilityList", "ICmPossibility"),
   ("ICmSemanticDomainList", "ICmSemanticDomain"),
   ("ICmAnthroList", "ICmAnthroItem"),
   ("IScrBook", "IScrSection"),
   ("IScrSection", "IStText"),
   ("IScrBook", "IStTxtPara")]

/-- Loop body of `precompute_common_paths`: `path = find_path(...)`,
`if path: paths[key] = {...}` — a `None` or empty result is falsy and
stores nothing. -/
def precomputeStep (g : Graph) (paths : List (String × PathInfo)) (se : String × String) :
    List (String × PathInfo) :=
  match find_path g se.1 se.2 5 with
  | some (s :: ss) =>
    paths ++ [(se.1 ++ " -> " ++ se.2,
      { steps := s :: ss, code_pattern := generate_code_from_path (s :: ss) })]
  | _ => paths

/-- `precompute_common_paths(graph)`: run `find_path` on every common
pair against the build-time graph snapshot and store each truthy
(non-`None`, non-empty) result under the key `"<start> -> <end>"`. -/
def precompute_common_paths (g : Graph) : List (String × PathInfo) :=
  common_pairs.foldl (precomputeStep g) []

/-- The navigation-graph document consumed by the handler: the adjacency
list and the precomputed common paths (the other document fields are not
used on the paths the claims are about). -/
structure NavGraph where
  graph : Graph
  common_paths : List (String × PathInfo)

/-- The observable outcome of `handle_get_navigation_path`: the `found`
flag and the `source`/`steps`/`code` fields of the JSON result (the
echoed query fields and the hint text carry no logic). -/
structure NavResult where
  found : Bool
  source : Option String
  steps : Option (List Step)
  code : Option String
deriving DecidableEq, Repr

/-- `handle_get_navigation_path(args)`: normalize both names, consult the
precomputed `common_paths` first, else fall back to BFS — where the
Python `if steps:` treats the empty path as falsy and reports
"no path found". -/
def handle_get_navigation_path (nav : Option NavGraph) (from_obj to_obj : String) :
    NavResult :=
  let fromN := normalize_object_name from_obj
  let toN := normalize_object_name to_obj
  match nav with
  | none => { found := false, source := none, steps := none, code := none }
  | some nv =>
    let path_key := fromN ++ " -> " ++ toN
    match lookupA path_key nv.common_paths with
    | some info =>
      { found := true, source := some "precomputed", steps := some info.steps,
        code := some info.code_pattern }
    | none =>
      match find_path_bfs nv.graph fromN toN 5 with
      | some (s :: ss) =>
        { found := true, source := some "computed", steps := some (s :: ss),
          code := some (generate_code_from_path (s :: ss)) }
      | _ => { found := false, source := none, steps := none, code := none }

/-- A valid edge chain of the graph: `IsChain g a p b` holds when the
steps of `p` are consecutive graph edges leading from `a` to `b` (the
empty chain requires `a = b`). -/
def IsChain (g : Graph) : String → List Step → String → Prop
  | a, [], b => a = b
  | a, st :: rest, b => (∃ e ∈ g.edgesFrom a, st = mkStep a e) ∧ IsChain g st.«to» rest b

/-! ## Concrete demonstration graph (the spec's §8 scenario):
`ILexEntry -(owns,SensesOS)-> ILexSense -(owns,ExamplesOS)-> ILexExampleSentence`. -/

def demoGraph : Graph :=
  [("ILexEntry", [⟨"ILexSense", "SensesOS", "owns"⟩]),
   ("ILexSense", [⟨"ILexExampleSentence", "ExamplesOS", "owns"⟩])]

/-! ## Association-list lemmas -/

theorem lookupA_updateA_self (k : String) (dflt : β) (f : β → β) (l : List (String × β)) :
    lookupA k (updateA k dflt f l) = some (f ((lookupA k l).getD dflt)) := by
  induction l with
  | nil => simp [updateA, lookupA]
  | cons kv rest ih =>
    obtain ⟨k', v⟩ := kv
    by_cases hk : k' = k <;> simp [updateA, lookupA, hk, ih]

theorem mem_updateA {k : String} {dflt : β} {f : β → β} {l : List (String × β)}
    {x : String × β} (hx : x ∈ updateA k dflt f l) :
    x ∈ l ∨ (∃ b, (k, b) ∈ l ∧ x = (k, f b)) ∨ x = (k, f dflt) := by
  induction l with
  | nil => simp [updateA] at hx; simp [hx]
  | cons kv rest ih =>
    obtain ⟨k', v⟩ := kv
    by_cases hk : k' = k
    · subst hk
      simp [updateA] at hx
      rcases hx with h | h
      · exact Or.inr (Or.inl ⟨v, by simp, by simp [h]⟩)
      · exact Or.inl (List.mem_cons_of_mem _ h)
    · simp [updateA, hk] at hx
      rcases hx with h | h
      · exact Or.inl (by simp [h])
      · rcases ih h with h2 | ⟨b, hb, hxb⟩ | h2
        · exact Or.inl (List.mem_cons_of_mem _ h2)
        · exact Or.inr (Or.inl ⟨b, List.mem_cons_of_mem _ hb, hxb⟩)
        · exact Or.inr (Or.inr h2)

theorem nodup_keys_eq {l : List (String × β)} (hnd : (l.map Prod.fst).Nodup)
    {k : String} {a b : β} (ha : (k, a) ∈ l) (hb : (k, b) ∈ l) : a = b := by
  induction l with
  | nil => simp at ha
  | cons kv rest ih =>
    simp only [List.map_cons, List.nodup_cons] at hnd
    rcases List.mem_cons.mp ha with h1 | h1 <;> rcases List.mem_cons.mp hb with h2 | h2
    · exact congrArg Prod.snd (h1.trans h2.symm)
    · exfalso
      exact hnd.1 (by simpa [← h1] using List.mem_map_of_mem Prod.fst h2)
    · exfalso
      exact hnd.1 (by simpa [← h2] using List.mem_map_of_mem Prod.fst h1)
    · exact ih hnd.2 h1 h2

/-! ## Claim C1 -/

/-- C1: the spec promises that `findPath(X, X)` is the empty path and that
this also holds at the public `get_navigation_path` interface.  The helper
half is true: `find_path_bfs(g, X, X)` returns `[]` for every graph and
depth.  The public half is false: the handler's `if steps:` treats the
empty list as falsy, so for `X == X` (with no cache entry) the handler
reports `found = false` instead of a found zero-step path — shown here at
the concrete failing input `from_object = to_object = "ILexEntry"` on the
demonstration graph. -/
theorem self_navigation_empty_path_truthiness_bug :
    (∀ (g : Graph) (s : String) (d : Nat), find_path_bfs g s s d = some []) ∧
    handle_get_navigation_path (some { graph := demoGraph, common_paths := [] })
        "ILexEntry" "ILexEntry" =
      { found := false, source := none, steps := none, code := none } := by
  constructor
  · intro g s d
    simp [find_path_bfs]
  · decide

/-! ## Claim C3 -/

theorem mem_foldl_precomputeStep {g : Graph} {pairs : List (String × String)}
    {acc : List (String × PathInfo)} {x : String × PathInfo}
    (hx : x ∈ pairs.foldl (precomputeStep g) acc) :
    x ∈ acc ∨ ∃ se ∈ pairs, x.1 = se.1 ++ " -> " ++ se.2 ∧
      find_path g se.1 se.2 5 = some x.2.steps := by
  induction pairs generalizing acc with
  | nil => simp at hx; exact Or.inl hx
  | cons p ps ih =>
    simp only [List.foldl_cons] at hx
    rcases ih hx with h | ⟨se, hse, hk, hf⟩
    · unfold precomputeStep at h
      split at h
      · next s ss heq =>
        rcases List.mem_append.mp h with h2 | h2
        · exact Or.inl h2
        · right
          refine ⟨p, List.mem_cons_self _ _, ?_, ?_⟩
          · simp at h2; simp [h2]
          · simp at h2; simp [h2, heq]
      · exact Or.inl h
    · exact Or.inr ⟨se, List.mem_cons_of_mem _ hse, hk, hf⟩

/-- C3: a precomputed cache hit on the normalized key
`"<start> -> <end>"` is returned verbatim (`found`, `source =
"precomputed"`, the cached steps and code), without consulting the live
graph at all (the result is identical under any replacement graph); and
every entry of the precomputed cache stores exactly the BFS
(`find_path`) result computed against the graph snapshot the cache was
built from. -/
theorem cache_hit_verbatim_and_matches_snapshot_bfs :
    (∀ (nv : NavGraph) (f t : String) (info : PathInfo),
      lookupA (normalize_object_name f ++ " -> " ++ normalize_object_name t)
          nv.common_paths = some info →
        handle_get_navigation_path (some nv) f t =
          { found := true, source := some "precomputed", steps := some info.steps,
            code := some info.code_pattern } ∧
        ∀ g' : Graph,
          handle_get_navigation_path (some { nv with graph := g' }) f t =
            handle_get_navigation_path (some nv) f t) ∧
    (∀ (g₀ : Graph) (k : String) (i : PathInfo),
      (k, i) ∈ precompute_common_paths g₀ →
        ∃ se ∈ common_pairs, k = se.1 ++ " -> " ++ se.2 ∧
          find_path g₀ se.1 se.2 5 = some i.steps) := by
  constructor
  · intro nv f t info h
    constructor
    · simp only [handle_get_navigation_path, h]
    · intro g'
      simp only [handle_get_navigation_path, h]
  · intro g₀ k i hmem
    have := @mem_foldl_precomputeStep g₀ common_pairs [] (k, i)
      (by simpa [precompute_common_paths] using hmem)
    rcases this with h | h
    · simp at h
    · simpa using h

/-- Closed witness for C3 at a concrete cache: a one-entry cache built by
`precompute_common_paths` over the demonstration graph is hit verbatim by
the handler for `("LexEntry", "LexSense")`, whatever graph is live. -/
theorem cache_hit_verbatim_and_matches_snapshot_bfs_witness :
    (handle_get_navigation_path
        (some { graph := [],
                common_paths := [("ILexEntry -> ILexSense",
                  { steps := [{ «from» := "ILexEntry", «to» := "ILexSense",
                                via := "SensesOS", type := "owns" }],
                    code_pattern := "for lexsense in lexentry.SensesOS:" })] })
        "LexEntry" "LexSense").steps =
      some [{ «from» := "ILexEntry", «to» := "ILexSense",
              via := "SensesOS", type := "owns" }] := by
  have h := cache_hit_verbatim_and_matches_snapshot_bfs.1
    { graph := [],
      common_paths := [("ILexEntry -> ILexSense",
        { steps := [{ «from» := "ILexEntry", «to» := "ILexSense",
                      via := "SensesOS", type := "owns" }],
          code_pattern := "for lexsense in lexentry.SensesOS:" })] }
    "LexEntry" "LexSense"
    { steps := [{ «from» := "ILexEntry", «to» := "ILexSense",
                  via := "SensesOS", type := "owns" }],
      code_pattern := "for lexsense in lexentry.SensesOS:" }
    (by decide)
  rw [h.1]

/-! ## Claims C8 and C10 -/

/-- One recorded operation as reported by the executor: the extracted api
calls (`extract_api_calls(code)`), the executed code text, the outcome,
the optional error message and error type, and the timestamp. -/
structure RecordedOp where
  apiCalls : List String
  code : String
  success : Bool
  errorMsg : Option String
  errorType : Option String
  now : String

/-- Folding step: apply one recorded operation to the store. -/
def applyOp (p : Patterns) (o : RecordedOp) : Patterns :=
  record_operation o.apiCalls o.code o.success o.errorMsg o.errorType o.now p

theorem record_preserves_example_bound (o : RecordedOp) (p : Patterns)
    (hp : ∀ kb ∈ p.error_patterns, kb.2.examples.length ≤ 3) :
    ∀ kb ∈ (applyOp p o).error_patterns, kb.2.examples.length ≤ 3 := by
  intro kb hkb
  unfold applyOp record_operation at hkb
  simp only at hkb
  split at hkb
  · rcases mem_updateA hkb with h | ⟨b, hb, hkbe⟩ | h
    · exact hp _ h
    · have hb3 := hp _ hb
      subst hkbe
      simp only [updateBucket]
      split
      · simpa using by omega
      · simpa using hb3
    · subst h
      simp [updateBucket, ErrorPattern.init]
  · exact hp _ hkb

/-- C8: starting from the empty (freshly initialized) store, after any
sequence of recorded operations every error bucket retains at most 3
examples: `record_operation` appends an example only while
`len(examples) < 3`, so the bound is invariant. -/
theorem error_bucket_examples_bounded (ops : List RecordedOp) :
    ∀ kb ∈ (ops.foldl applyOp Patterns.empty).error_patterns,
      kb.2.examples.length ≤ 3 := by
  suffices h : ∀ (ops : List RecordedOp) (p : Patterns),
      (∀ kb ∈ p.error_patterns, kb.2.examples.length ≤ 3) →
      ∀ kb ∈ (ops.foldl applyOp p).error_patterns, kb.2.examples.length ≤ 3 by
    exact h ops Patterns.empty (by simp [Patterns.empty])
  intro ops
  induction ops with
  | nil => intro p hp; simpa using hp
  | cons o os ih =>
    intro p hp
    simpa using ih (applyOp p o) (record_preserves_example_bound o p hp)

/-- A concrete recorded failure used to witness the example bound. -/
def demoOp : RecordedOp :=
  { apiCalls := [], code := "c", success := false, errorMsg := some "boom",
    errorType := none, now := "t" }

theorem error_bucket_examples_bounded_witness :
    (normalize_error "boom", updateBucket [] "c" "boom" "t" (ErrorPattern.init "t"))
      ∈ (([demoOp] : List RecordedOp).foldl applyOp Patterns.empty).error_patterns ∧
    (updateBucket [] "c" "boom" "t" (ErrorPattern.init "t")).examples.length ≤ 3 := by
  have hT : strTruthy (some "boom") = true := by decide
  have hmem : (normalize_error "boom", updateBucket [] "c" "boom" "t" (ErrorPattern.init "t"))
      ∈ (([demoOp] : List RecordedOp).foldl applyOp Patterns.empty).error_patterns := by
    simp [applyOp, demoOp, record_operation, hT, Patterns.empty, updateA]
  exact ⟨hmem, error_bucket_examples_bounded [demoOp] _ hmem⟩

/-- C10: a failing operation with a non-empty error message from which no
api pattern key was extracted leaves the per-pattern statistics
(`api_patterns`) completely unchanged, yet still creates the error bucket
keyed by the normalized message (count 1, one retained example, empty
associated api-call set) or, if the bucket exists, increments its count
(retaining a further example only below the cap and leaving its
associated api calls unchanged). -/
theorem record_failure_without_extracted_patterns (p : Patterns)
    (code m now : String) (et : Option String) (hm : m ≠ "") :
    (record_operation [] code false (some m) et now p).api_patterns = p.api_patterns ∧
    (lookupA (normalize_error m) p.error_patterns = none →
      lookupA (normalize_error m)
          (record_operation [] code false (some m) et now p).error_patterns =
        some { count := 1,
               examples := [{ code := code.take 500, error := m.take 500, timestamp := now }],
               api_calls := [], first_seen := now, potential_fix := none }) ∧
    (∀ b, lookupA (normalize_error m) p.error_patterns = some b →
      lookupA (normalize_error m)
          (record_operation [] code false (some m) et now p).error_patterns =
        some ({ b with
                count := b.count + 1,
                examples :=
                  if b.examples.length < 3
                  then b.examples ++ [{ code := code.take 500, error := m.take 500, timestamp := now }]
                  else b.examples })) := by
  have htr : strTruthy (some m) = true := by
    simp [strTruthy, hm]
  refine ⟨rfl, ?_, ?_⟩
  · intro hnone
    simp only [record_operation, htr, Bool.not_false, Bool.true_and, if_true,
      Option.getD_some, lookupA_updateA_self]
    rw [hnone]
    simp [updateBucket, ErrorPattern.init]
  · intro b hb
    simp only [record_operation, htr, Bool.not_false, Bool.true_and, if_true,
      Option.getD_some, lookupA_updateA_self]
    rw [hb]
    simp only [Option.getD_some, updateBucket, List.foldl_nil]
    split <;> simp_all

/-- Closed witness for C10: recording a failing `"boom"` with no
extracted patterns on the empty store leaves `api_patterns` empty and
creates the single expected bucket. -/
theorem record_failure_without_extracted_patterns_witness :
    (record_operation [] "x = 1" false (some "boom") none "t0" Patterns.empty).api_patterns
        = [] ∧
    lookupA (normalize_error "boom")
        (record_operation [] "x = 1" false (some "boom") none "t0" Patterns.empty).error_patterns
      = some { count := 1,
               examples := [{ code := ("x = 1" : String).take 500,
                              error := ("boom" : String).take 500, timestamp := "t0" }],
               api_calls := [], first_seen := "t0", potential_fix := none } := by
  have h := record_failure_without_extracted_patterns Patterns.empty "x = 1" "boom" "t0" none
    (by decide)
  refine ⟨h.1, ?_⟩
  exact h.2.1 rfl

/-! ## Recommendations (`PatternTracker.get_recommendations`) -/

/-- Stable insertion: place `x` before the first `y` with `le x y`.
With `le x y = (key x ≤ key y)` (ascending) or `le x y = (key y ≤ key x)`
(descending) this is extensionally Python's stable `list.sort(key=...)`:
both are the unique key-sorted permutation in which equal-key elements
keep their input order. -/
def insertLe (le : α → α → Bool) (x : α) : List α → List α
  | [] => [x]
  | y :: ys => if le x y then x :: y :: ys else y :: insertLe le x ys

/-- Stable insertion sort; see `insertLe`. -/
def isort (le : α → α → Bool) : List α → List α
  | [] => []
  | x :: xs => insertLe le x (isort le xs)

theorem mem_insertLe (le : α → α → Bool) (x : α) (l : List α) (a : α) :
    a ∈ insertLe le x l ↔ a = x ∨ a ∈ l := by
  induction l with
  | nil => simp [insertLe]
  | cons y ys ih =>
    by_cases h : le x y = true <;> simp [insertLe, h, ih] <;> tauto

theorem mem_isort (le : α → α → Bool) (l : List α) (a : α) :
    a ∈ isort le l ↔ a ∈ l := by
  induction l with
  | nil => simp [isort]
  | cons x xs ih => simp [isort, mem_insertLe, ih]

/-- One entry of `recommendations["preferred_patterns"]`.  `success_rate`
is stored as the percentage `rate*100`; the code rounds it to one decimal
for display (`round(..., 1)`), which elides nothing the claims depend
on. -/
structure PreferredRec where
  pattern : String
  success_rate : ℚ
  uses : Nat
deriving DecidableEq, Repr

/-- One entry of `recommendations["patterns_to_avoid"]`. -/
structure AvoidRec where
  pattern : String
  success_rate : ℚ
  uses : Nat
  common_errors : List String
deriving DecidableEq, Repr

/-- One entry of `recommendations["common_errors_needing_fix"]`. -/
structure ErrorFixRec where
  error_pattern : String
  count : Nat
  affected_apis : List String
  potential_fix : Option String
deriving DecidableEq, Repr

/-- The result of `get_recommendations`. -/
structure Recommendations where
  preferred_patterns : List PreferredRec
  patterns_to_avoid : List AvoidRec
  common_errors_needing_fix : List ErrorFixRec
deriving DecidableEq, Repr

/-- The "preferred" test of one loop iteration: `total >= 3` and
`success_rate >= 0.8`.  (`total` is written out to keep the definition
let-free.) -/
def preferredEntry (kd : String × ApiPattern) : Option PreferredRec :=
  if 3 ≤ kd.2.success_count + kd.2.failure_count ∧
      (0.8 : ℚ) ≤ (kd.2.success_count : ℚ) / ((kd.2.success_count + kd.2.failure_count : ℕ) : ℚ) then
    some { pattern := kd.1,
           success_rate :=
             (kd.2.success_count : ℚ) / ((kd.2.success_count + kd.2.failure_count : ℕ) : ℚ) * 100,
           uses := kd.2.success_count + kd.2.failure_count }
  else none

/-- The "avoid" test of one loop iteration: `total >= 3` and (`elif`) not
preferred and `success_rate <= 0.3`. -/
def avoidEntry (kd : String × ApiPattern) : Option AvoidRec :=
  if 3 ≤ kd.2.success_count + kd.2.failure_count ∧
      ¬ ((0.8 : ℚ) ≤ (kd.2.success_count : ℚ) / ((kd.2.success_count + kd.2.failure_count : ℕ) : ℚ)) ∧
      (kd.2.success_count : ℚ) / ((kd.2.success_count + kd.2.failure_count : ℕ) : ℚ) ≤ (0.3 : ℚ) then
    some { pattern := kd.1,
           success_rate :=
             (kd.2.success_count : ℚ) / ((kd.2.success_count + kd.2.failure_count : ℕ) : ℚ) * 100,
           uses := kd.2.success_count + kd.2.failure_count,
           common_errors := (kd.2.common_errors.map Prod.fst).take 3 }
  else none

/-- The recurring-error test: `count >= 2`. -/
def errorFixEntry (kd : String × ErrorPattern) : Option ErrorFixRec :=
  if 2 ≤ kd.2.count then
    some { error_pattern := kd.1, count := kd.2.count,
           affected_apis := kd.2.api_calls.take 5, potential_fix := kd.2.potential_fix }
  else none

/-- `PatternTracker.get_recommendations()`: one pass over `api_patterns`
appending to "preferred" / "avoid" per `preferredEntry` / `avoidEntry`,
one pass over `error_patterns` per `errorFixEntry`, then the three
stable sorts (`-uses` descending, `success_rate` ascending, `-count`
descending). -/
def get_recommendations (p : Patterns) : Recommendations :=
  { preferred_patterns :=
      isort (fun a b => b.uses ≤ a.uses) (p.api_patterns.filterMap preferredEntry),
    patterns_to_avoid :=
      isort (fun a b => a.success_rate ≤ b.success_rate) (p.api_patterns.filterMap avoidEntry),
    common_errors_needing_fix :=
      isort (fun a b => b.count ≤ a.count) (p.error_patterns.filterMap errorFixEntry) }

/-- C4: for a store with distinct pattern keys, a pattern key is listed in
"preferred" iff it has at least 3 observations and success rate at least
0.8, and in "avoid" iff it has at least 3 observations and success rate at
most 0.3; in particular a pattern strictly between the thresholds, or with
fewer than 3 uses, appears in neither list. -/
theorem recommendation_thresholds (p : Patterns)
    (hnd : (p.api_patterns.map Prod.fst).Nodup)
    (k : String) (d : ApiPattern) (hk : (k, d) ∈ p.api_patterns) :
    ((k ∈ (get_recommendations p).preferred_patterns.map PreferredRec.pattern) ↔
      (3 ≤ d.success_count + d.failure_count ∧
       (0.8 : ℚ) ≤ (d.success_count : ℚ) / ((d.success_count + d.failure_count : ℕ) : ℚ))) ∧
    ((k ∈ (get_recommendations p).patterns_to_avoid.map AvoidRec.pattern) ↔
      (3 ≤ d.success_count + d.failure_count ∧
       (d.success_count : ℚ) / ((d.success_count + d.failure_count : ℕ) : ℚ) ≤ (0.3 : ℚ))) := by
  constructor
  · constructor
    · intro hmem
      simp only [get_recommendations, List.mem_map, mem_isort, List.mem_filterMap] at hmem
      obtain ⟨r, ⟨⟨k', d'⟩, hkd', hr⟩, hrk⟩ := hmem
      unfold preferredEntry at hr
      split at hr
      · next hcond =>
        obtain ⟨rfl⟩ := hr
        simp only at hrk
        subst hrk
        have : d' = d := nodup_keys_eq hnd hkd' hk
        subst this
        exact ⟨hcond.1, hcond.2⟩
      · simp at hr
    · intro hcond
      simp only [get_recommendations, List.mem_map, mem_isort, List.mem_filterMap]
      refine ⟨{ pattern := k,
                success_rate :=
                  (d.success_count : ℚ) / ((d.success_count + d.failure_count : ℕ) : ℚ) * 100,
                uses := d.success_count + d.failure_count }, ⟨(k, d), hk, ?_⟩, rfl⟩
      unfold preferredEntry
      rw [if_pos (And.intro hcond.1 hcond.2)]
  · constructor
    · intro hmem
      simp only [get_recommendations, List.mem_map, mem_isort, List.mem_filterMap] at hmem
      obtain ⟨r, ⟨⟨k', d'⟩, hkd', hr⟩, hrk⟩ := hmem
      unfold avoidEntry at hr
      split at hr
      · next hcond =>
        obtain ⟨rfl⟩ := hr
        simp only at hrk
        subst hrk
        have : d' = d := nodup_keys_eq hnd hkd' hk
        subst this
        exact ⟨hcond.1, hcond.2.2⟩
      · simp at hr
    · intro hcond
      have hlt : ¬ ((0.8 : ℚ) ≤
          (d.success_count : ℚ) / ((d.success_count + d.failure_count : ℕ) : ℚ)) := by
        intro hge
        exact absurd (le_trans hge hcond.2) (by norm_num)
      simp only [get_recommendations, List.mem_map, mem_isort, List.mem_filterMap]
      refine ⟨{ pattern := k,
                success_rate :=
                  (d.success_count : ℚ) / ((d.success_count + d.failure_count : ℕ) : ℚ) * 100,
                uses := d.success_count + d.failure_count,
                common_errors := (d.common_errors.map Prod.fst).take 3 }, ⟨(k, d), hk, ?_⟩, rfl⟩
      unfold avoidEntry
      rw [if_pos (And.intro hcond.1 (And.intro hlt hcond.2))]

/-- Closed witness for C4: a store with a 3/3-success pattern, a 0/3
pattern, a 1/1 pattern, and a 2/1 pattern: the first is preferred only,
the second avoided only, the last two in neither list. -/
theorem recommendation_thresholds_witness :
    let mk : Nat → Nat → ApiPattern := fun s f =>
      { success_count := s, failure_count := f, last_used := none, common_errors := [] }
    let store : Patterns :=
      { api_patterns := [("good", mk 3 0), ("bad", mk 0 3), ("two", mk 1 1), ("mid", mk 2 1)],
        error_patterns := [] }
    ("good" ∈ (get_recommendations store).preferred_patterns.map PreferredRec.pattern) ∧
    ("bad" ∈ (get_recommendations store).patterns_to_avoid.map AvoidRec.pattern) ∧
    ¬ ("two" ∈ (get_recommendations store).preferred_patterns.map PreferredRec.pattern) ∧
    ¬ ("two" ∈ (get_recommendations store).patterns_to_avoid.map AvoidRec.pattern) ∧
    ¬ ("mid" ∈ (get_recommendations store).preferred_patterns.map PreferredRec.pattern) ∧
    ¬ ("mid" ∈ (get_recommendations store).patterns_to_avoid.map AvoidRec.pattern) := by
  intro mk store
  have hnd : (store.api_patterns.map Prod.fst).Nodup := by decide
  refine ⟨?_, ?_, ?_, ?_, ?_, ?_⟩
  · exact (recommendation_thresholds store hnd "good" (mk 3 0) (by simp [store])).1.mpr
      (by norm_num)
  · exact (recommendation_thresholds store hnd "bad" (mk 0 3) (by simp [store])).2.mpr
      (by norm_num)
  · intro hmem
    have := (recommendation_thresholds store hnd "two" (mk 1 1) (by simp [store])).1.mp hmem
    norm_num at this
  · intro hmem
    have := (recommendation_thresholds store hnd "two" (mk 1 1) (by simp [store])).2.mp hmem
    norm_num at this
  · intro hmem
    have := (recommendation_thresholds store hnd "mid" (mk 2 1) (by simp [store])).1.mp hmem
    norm_num at this
  · intro hmem
    have := (recommendation_thresholds store hnd "mid" (mk 2 1) (by simp [store])).2.mp hmem
    norm_num at this

/-! ## Claim C2: soundness of the BFS result -/

theorem expandEdges_inl {endName current : String} {path : List Step}
    {es : List Edge} {visited : List String} {acc : List QItem} {res : List Step}
    (h : expandEdges endName current path es visited acc = Sum.inl res) :
    ∃ e ∈ es, e.target = endName ∧ res = path ++ [mkStep current e] := by
  induction es generalizing visited acc with
  | nil => simp [expandEdges] at h
  | cons e es ih =>
    unfold expandEdges at h
    by_cases he : e.target = endName
    · rw [if_pos he] at h
      obtain rfl : path ++ [mkStep current e] = res := by simpa using h
      exact ⟨e, List.mem_cons_self _ _, he, rfl⟩
    · rw [if_neg he] at h
      by_cases hv : e.target ∈ visited
      · rw [if_pos hv] at h
        obtain ⟨e', he', h1, h2⟩ := ih h
        exact ⟨e', List.mem_cons_of_mem _ he', h1, h2⟩
      · rw [if_neg hv] at h
        obtain ⟨e', he', h1, h2⟩ := ih h
        exact ⟨e', List.mem_cons_of_mem _ he', h1, h2⟩

theorem expandEdges_inr_items {endName current : String} {path : List Step}
    {es : List Edge} {visited : List String} {acc : List QItem}
    {visited' : List String} {items : List QItem}
    (h : expandEdges endName current path es visited acc = Sum.inr (visited', items)) :
    ∀ it ∈ items, it ∈ acc ∨ ∃ e ∈ es, it = (e.target, path ++ [mkStep current e]) := by
  induction es generalizing visited acc with
  | nil =>
    simp only [expandEdges, Sum.inr.injEq, Prod.mk.injEq] at h
    intro it hit
    exact Or.inl (h.2 ▸ hit)
  | cons e es ih =>
    unfold expandEdges at h
    by_cases he : e.target = endName
    · rw [if_pos he] at h; exact absurd h (by simp)
    · rw [if_neg he] at h
      by_cases hv : e.target ∈ visited
      · rw [if_pos hv] at h
        intro it hit
        rcases ih h it hit with h1 | ⟨e', he', h2⟩
        · exact Or.inl h1
        · exact Or.inr ⟨e', List.mem_cons_of_mem _ he', h2⟩
      · rw [if_neg hv] at h
        intro it hit
        rcases ih h it hit with h1 | ⟨e', he', h2⟩
        · rcases List.mem_append.mp h1 with h2 | h2
          · exact Or.inl h2
          · right
            refine ⟨e, List.mem_cons_self _ _, ?_⟩
            simpa using h2
        · exact Or.inr ⟨e', List.mem_cons_of_mem _ he', h2⟩

theorem IsChain.append_step {g : Graph} {a : String} {p : List Step} {b : String}
    (h : IsChain g a p b) {e : Edge} (he : e ∈ g.edgesFrom b) :
    IsChain g a (p ++ [mkStep b e]) e.target := by
  induction p generalizing a with
  | nil =>
    obtain rfl : a = b := h
    exact ⟨⟨e, he, rfl⟩, rfl⟩
  | cons st rest ih =>
    obtain ⟨hedge, hrest⟩ := h
    exact ⟨hedge, ih hrest⟩

theorem bfsLoop_sound {g : Graph} {endName : String} {maxDepth : Nat} (start : String) :
    ∀ (fuel : Nat) (queue : List QItem) (visited : List String) (res : List Step),
    (∀ it ∈ queue, IsChain g start it.2 it.1) →
    bfsLoop g endName maxDepth fuel queue visited = some res →
    IsChain g start res endName ∧ res.length ≤ maxDepth := by
  intro fuel
  induction fuel with
  | zero => intro queue visited res _ hres; simp [bfsLoop] at hres
  | succ fuel ih =>
    intro queue visited res hq hres
    match queue with
    | [] => simp [bfsLoop] at hres
    | (current, path) :: rest =>
      unfold bfsLoop at hres
      by_cases hd : maxDepth ≤ path.length
      · rw [if_pos hd] at hres
        exact ih rest visited res (fun it hit => hq it (List.mem_cons_of_mem _ hit)) hres
      · rw [if_neg hd] at hres
        cases hex : expandEdges endName current path (g.edgesFrom current) visited [] with
        | inl res' =>
          rw [hex] at hres
          obtain rfl : res' = res := by simpa using hres
          obtain ⟨e, he, htgt, hform⟩ := expandEdges_inl hex
          have hchain : IsChain g start path current := hq _ (List.mem_cons_self _ _)
          refine ⟨?_, ?_⟩
          · rw [hform, ← htgt]
            exact hchain.append_step he
          · rw [hform]
            simp only [List.length_append, List.length_cons, List.length_nil]
            omega
        | inr vi =>
          obtain ⟨visited', items⟩ := vi
          rw [hex] at hres
          refine ih (rest ++ items) visited' res ?_ hres
          intro it hit
          rcases List.mem_append.mp hit with h1 | h1
          · exact hq it (List.mem_cons_of_mem _ h1)
          · rcases expandEdges_inr_items hex it h1 with h2 | ⟨e, he, h2⟩
            · simp at h2
            · subst h2
              exact (hq _ (List.mem_cons_self _ _)).append_step he

/-- C2: whenever `find_path_bfs` succeeds for a pair that is connected
within `maxDepth` edges, the returned path has at most `maxDepth` steps
and is a valid edge chain of the graph from the start to the end: its
first step leaves the start, every step's source is the previous step's
target, and the final step lands on the end (`IsChain`). -/
theorem find_path_bfs_sound (g : Graph) (a b : String) (maxDepth : Nat)
    (res : List Step)
    (hreach : ∃ c, IsChain g a c b ∧ c.length ≤ maxDepth)
    (hres : find_path_bfs g a b maxDepth = some res) :
    res.length ≤ maxDepth ∧ IsChain g a res b := by
  clear hreach
  unfold find_path_bfs at hres
  by_cases hab : a = b
  · rw [if_pos hab] at hres
    obtain rfl : ([] : List Step) = res := by simpa using hres
    exact ⟨by simp, hab⟩
  · rw [if_neg hab] at hres
    have := bfsLoop_sound a _ [(a, [])] [a] res (by simp [IsChain]) hres
    exact ⟨this.2, this.1⟩

/-- Closed witness for C2: the spec's §8 scenario graph, where BFS finds
the 2-step chain `ILexEntry → ILexSense → ILexExampleSentence` within
depth 5. -/
theorem find_path_bfs_sound_witness :
    ∃ res : List Step,
      find_path_bfs demoGraph "ILexEntry" "ILexExampleSentence" 5 = some res ∧
      res.length ≤ 5 ∧ IsChain demoGraph "ILexEntry" res "ILexExampleSentence" := by
  refine ⟨[{ «from» := "ILexEntry", «to» := "ILexSense", via := "SensesOS", type := "owns" },
           { «from» := "ILexSense", «to» := "ILexExampleSentence", via := "ExamplesOS",
             type := "owns" }], by decide, ?_⟩
  refine find_path_bfs_sound demoGraph "ILexEntry" "ILexExampleSentence" 5 _ ?_ (by decide)
  refine ⟨[{ «from» := "ILexEntry", «to» := "ILexSense", via := "SensesOS", type := "owns" },
           { «from» := "ILexSense", «to» := "ILexExampleSentence", via := "ExamplesOS",
             type := "owns" }], ?_, by decide⟩
  refine ⟨⟨⟨"ILexSense", "SensesOS", "owns"⟩, by decide, by decide⟩, ?_⟩
  exact ⟨⟨⟨"ILexExampleSentence", "ExamplesOS", "owns"⟩, by decide, by decide⟩, rfl⟩

/-! ## Claim C9: minimality of the BFS result

The invariant-based argument: queue entries are valid chains with
non-decreasing lengths differing by at most one (level structure), every
queue path is a shortest chain to its node, and every processed (visited,
dequeued) node either had all successors visited or lies at distance at
least `maxDepth`.  The chase lemma walks an arbitrary chain from `start`
through visited nodes until it must meet the queue, bounding the chain
length from below by the front level. -/

theorem expandEdges_inr_spec {endName current : String} {path : List Step}
    {es : List Edge} {visited : List String} {acc : List QItem}
    {visited' : List String} {items : List QItem}
    (h : expandEdges endName current path es visited acc = Sum.inr (visited', items)) :
    (∀ e ∈ es, e.target ≠ endName) ∧
    (∃ extra, visited' = visited ++ extra) ∧
    (∀ e ∈ es, e.target ∈ visited') ∧
    (∃ news, items = acc ++ news ∧
      (∀ it ∈ news, ∃ e ∈ es, it = (e.target, path ++ [mkStep current e]) ∧ it.1 ∉ visited) ∧
      (news.map Prod.fst).Nodup ∧
      (∀ it ∈ news, it.1 ∈ visited') ∧
      (∀ x ∈ visited', x ∈ visited ∨ x ∈ news.map Prod.fst)) := by
  induction es generalizing visited acc with
  | nil =>
    simp only [expandEdges, Sum.inr.injEq, Prod.mk.injEq] at h
    obtain ⟨rfl, rfl⟩ := h
    refine ⟨by simp, ⟨[], by simp⟩, by simp, ⟨[], by simp⟩⟩
  | cons e es ih =>
    unfold expandEdges at h
    by_cases he : e.target = endName
    · rw [if_pos he] at h; exact absurd h (by simp)
    · rw [if_neg he] at h
      by_cases hv : e.target ∈ visited
      · rw [if_pos hv] at h
        obtain ⟨h1, ⟨extra, hext⟩, h3, news, hitems, hnews, hnd, hnv, hcov⟩ := ih h
        refine ⟨?_, ⟨extra, hext⟩, ?_, news, hitems, ?_, hnd, hnv, hcov⟩
        · intro e' he'
          rcases List.mem_cons.mp he' with rfl | he' <;> [exact he; exact h1 e' he']
        · intro e' he'
          rcases List.mem_cons.mp he' with rfl | he'
          · rw [hext]; exact List.mem_append_left _ hv
          · exact h3 e' he'
        · intro it hit
          obtain ⟨e', he', hform, hnvis⟩ := hnews it hit
          exact ⟨e', List.mem_cons_of_mem _ he', hform, hnvis⟩
      · rw [if_neg hv] at h
        obtain ⟨h1, ⟨extra, hext⟩, h3, news', hitems, hnews, hnd, hnv, hcov⟩ := ih h
        have hext' : visited' = visited ++ ([e.target] ++ extra) := by
          rw [hext]; simp
        have htv2 : e.target ∈ visited ++ [e.target] := by simp
        refine ⟨?_, ⟨[e.target] ++ extra, hext'⟩, ?_,
          (e.target, path ++ [mkStep current e]) :: news', ?_, ?_, ?_, ?_, ?_⟩
        · intro e' he'
          rcases List.mem_cons.mp he' with rfl | he' <;> [exact he; exact h1 e' he']
        · intro e' he'
          rcases List.mem_cons.mp he' with rfl | he'
          · rw [hext]; exact List.mem_append_left _ htv2
          · exact h3 e' he'
        · rw [hitems]; simp
        · intro it hit
          rcases List.mem_cons.mp hit with rfl | hit
          · exact ⟨e, List.mem_cons_self _ _, rfl, hv⟩
          · obtain ⟨e', he', hform, hnvis⟩ := hnews it hit
            refine ⟨e', List.mem_cons_of_mem _ he', hform, fun hmem => hnvis ?_⟩
            exact List.mem_append_left _ hmem
        · refine List.nodup_cons.mpr ⟨?_, hnd⟩
          intro hmem
          obtain ⟨it, hit, hfst⟩ := List.mem_map.mp hmem
          obtain ⟨e', _, _, hnvis⟩ := hnews it hit
          exact hnvis (hfst ▸ List.mem_append_right _ (by simp))
        · intro it hit
          rcases List.mem_cons.mp hit with rfl | hit
          · rw [hext]; exact List.mem_append_left _ htv2
          · exact hnv it hit
        · intro x hx
          rcases hcov x hx with hx2 | hx2
          · rcases List.mem_append.mp hx2 with hx3 | hx3
            · exact Or.inl hx3
            · right
              simp only [List.map_cons, List.mem_cons]
              exact Or.inl (by simpa using hx3)
          · right
            exact List.mem_cons_of_mem _ hx2

theorem bfs_chase {g : Graph} {start : String} {maxDepth : Nat}
    {queue : List QItem} {visited : List String} {L : Nat}
    (hmin : ∀ it ∈ queue, L ≤ it.2.length)
    (hM : ∀ it ∈ queue, ∀ c, IsChain g start c it.1 → it.2.length ≤ c.length)
    (hP : ∀ u ∈ visited, u ∉ queue.map Prod.fst →
      (∀ e ∈ g.edgesFrom u, e.target ∈ visited) ∨
      (∀ c, IsChain g start c u → maxDepth ≤ c.length))
    {t : String} (ht : t ∉ visited) :
    ∀ (d : List Step) (u : String) (k : Nat),
      u ∈ visited → IsChain g u d t → (∃ c1, IsChain g start c1 u ∧ c1.length = k) →
      L + 1 ≤ k + d.length ∨ maxDepth + 1 ≤ k + d.length := by
  intro d
  induction d with
  | nil =>
    intro u k hu hd _
    exact absurd (hd ▸ hu) ht
  | cons st d' ih =>
    intro u k hu hd hk
    obtain ⟨⟨e, he, rfl⟩, hd'⟩ := hd
    by_cases hq : u ∈ queue.map Prod.fst
    · obtain ⟨it, hit, rfl⟩ := List.mem_map.mp hq
      left
      obtain ⟨c1, hc1, rfl⟩ := hk
      have h1 := hM it hit c1 hc1
      have h2 := hmin it hit
      simp only [List.length_cons]
      omega
    · rcases hP u hu hq with hleft | hright
      · have htgt : e.target ∈ visited := hleft e he
        obtain ⟨c1, hc1, hlen⟩ := hk
        have hrec := ih e.target (k + 1) htgt hd'
          ⟨c1 ++ [mkStep u e], hc1.append_step he, by simp [hlen]⟩
        simp only [List.length_cons]
        rcases hrec with h | h
        · left; omega
        · right; omega
      · right
        obtain ⟨c1, hc1, hlen⟩ := hk
        have := hright c1 hc1
        simp only [List.length_cons]
        omega

theorem bfsLoop_shortest {g : Graph} {start endName : String} {maxDepth : Nat} :
    ∀ (fuel : Nat) (queue : List QItem) (visited : List String) (res : List Step),
      start ∈ visited →
      endName ∉ visited →
      (∀ it ∈ queue, IsChain g start it.2 it.1 ∧ it.1 ∈ visited) →
      (queue.map Prod.fst).Nodup →
      List.Pairwise (fun x y : QItem => x.2.length ≤ y.2.length) queue →
      (∀ x ∈ queue, ∀ y ∈ queue, x.2.length ≤ y.2.length + 1) →
      (∀ it ∈ queue, ∀ c, IsChain g start c it.1 → it.2.length ≤ c.length) →
      (∀ u ∈ visited, u ∉ queue.map Prod.fst →
        (∀ e ∈ g.edgesFrom u, e.target ∈ visited) ∨
        (∀ c, IsChain g start c u → maxDepth ≤ c.length)) →
      bfsLoop g endName maxDepth fuel queue visited = some res →
      ∀ c, IsChain g start c endName → res.length ≤ c.length := by
  intro fuel
  induction fuel with
  | zero =>
    intro queue visited res _ _ _ _ _ _ _ _ hres
    simp [bfsLoop] at hres
  | succ fuel ih =>
    intro queue visited res hstart hend hQ hD hS hT hM hP hres c hc
    match queue with
    | [] => simp [bfsLoop] at hres
    | (current, path) :: rest =>
      have hfrontmin : ∀ it ∈ (current, path) :: rest, path.length ≤ it.2.length := by
        intro it hit
        rcases List.mem_cons.mp hit with rfl | hit
        · exact le_refl _
        · exact (List.pairwise_cons.mp hS).1 it hit
      unfold bfsLoop at hres
      by_cases hd : maxDepth ≤ path.length
      · rw [if_pos hd] at hres
        refine ih rest visited res hstart hend
          (fun it hit => hQ it (List.mem_cons_of_mem _ hit))
          (by simpa using (List.nodup_cons.mp (by simpa using hD)).2)
          hS.of_cons
          (fun x hx y hy => hT x (List.mem_cons_of_mem _ hx) y (List.mem_cons_of_mem _ hy))
          (fun it hit => hM it (List.mem_cons_of_mem _ hit))
          ?_ hres c hc
        intro u hu hunq
        by_cases huc : u = current
        · subst huc
          right
          intro c' hc'
          exact le_trans hd (hM (u, path) (List.mem_cons_self _ _) c' hc')
        · refine hP u hu ?_
          simp only [List.map_cons, List.mem_cons]
          rintro (h | h)
          · exact huc h
          · exact hunq h
      · rw [if_neg hd] at hres
        cases hex : expandEdges endName current path (g.edgesFrom current) visited [] with
        | inl res' =>
          rw [hex] at hres
          obtain rfl : res' = res := by simpa using hres
          obtain ⟨e, he, htgt, hform⟩ := expandEdges_inl hex
          have hchase := bfs_chase (L := path.length) hfrontmin hM hP (t := endName) hend
            c start 0 hstart hc ⟨[], rfl, rfl⟩
          rw [hform]
          simp only [List.length_append, List.length_cons, List.length_nil]
          rcases hchase with h | h
          · omega
          · omega
        | inr vi =>
          obtain ⟨visited', items⟩ := vi
          rw [hex] at hres
          obtain ⟨hEa, ⟨extra, hext⟩, hEc, news, hitems, hnews, hndnews, hnvis, hcov⟩ :=
            expandEdges_inr_spec hex
          have hitemsn : items = news := by simpa using hitems
          rw [hitemsn] at hres
          have hrestnodes : ∀ it ∈ rest, it.1 ∈ visited :=
            fun it hit => (hQ it (List.mem_cons_of_mem _ hit)).2
          have hnewlen : ∀ it ∈ news, it.2.length = path.length + 1 := by
            intro it hit
            obtain ⟨e', _, hform, _⟩ := hnews it hit
            rw [hform]
            simp
          have hnewnotvis : ∀ it ∈ news, it.1 ∉ visited :=
            fun it hit => (hnews it hit).choose_spec.2.2
          refine ih (rest ++ news) visited' res ?_ ?_ ?_ ?_ ?_ ?_ ?_ ?_ hres c hc
          · rw [hext]; exact List.mem_append_left _ hstart
          · intro hmem
            rcases hcov endName hmem with h | h
            · exact hend h
            · obtain ⟨it, hit, hfst⟩ := List.mem_map.mp h
              obtain ⟨e', he', hform, _⟩ := hnews it hit
              refine hEa e' he' ?_
              rw [hform] at hfst
              simpa using hfst
          · intro it hit
            rcases List.mem_append.mp hit with hit | hit
            · exact ⟨(hQ it (List.mem_cons_of_mem _ hit)).1,
                by rw [hext]; exact List.mem_append_left _ (hQ it (List.mem_cons_of_mem _ hit)).2⟩
            · obtain ⟨e', he', hform, _⟩ := hnews it hit
              refine ⟨?_, hnvis it hit⟩
              rw [hform]
              exact ((hQ (current, path) (List.mem_cons_self _ _)).1).append_step he'
          · rw [List.map_append]
            refine List.Nodup.append ?_ hndnews ?_
            · exact (by simpa using (List.nodup_cons.mp (by simpa using hD)).2)
            · intro x hx1 hx2
              obtain ⟨it, hit, rfl⟩ := List.mem_map.mp hx1
              obtain ⟨it', hit', hfst⟩ := List.mem_map.mp hx2
              exact hnewnotvis it' hit' (hfst ▸ hrestnodes it hit)
          · rw [List.pairwise_append]
            refine ⟨hS.of_cons, ?_, ?_⟩
            · refine List.pairwise_of_forall_mem_list ?_
              intro a ha b hb
              rw [hnewlen a ha, hnewlen b hb]
            · intro a ha b hb
              rw [hnewlen b hb]
              exact hT a (List.mem_cons_of_mem _ ha) (current, path) (List.mem_cons_self _ _)
          · intro x hx y hy
            rcases List.mem_append.mp hx with hx1 | hx1 <;>
              rcases List.mem_append.mp hy with hy1 | hy1
            · exact hT x (List.mem_cons_of_mem _ hx1) y (List.mem_cons_of_mem _ hy1)
            · rw [hnewlen y hy1]
              have h2 : x.2.length ≤ path.length + 1 :=
                hT x (List.mem_cons_of_mem _ hx1) (current, path) (List.mem_cons_self _ _)
              omega
            · rw [hnewlen x hx1]
              have h2 : path.length ≤ y.2.length := hfrontmin y (List.mem_cons_of_mem _ hy1)
              omega
            · rw [hnewlen x hx1, hnewlen y hy1]
              omega
          · intro it hit c' hc'
            rcases List.mem_append.mp hit with hit1 | hit1
            · exact hM it (List.mem_cons_of_mem _ hit1) c' hc'
            · have hchase := bfs_chase (L := path.length) hfrontmin hM hP
                (t := it.1) (hnewnotvis it hit1) c' start 0 hstart hc' ⟨[], rfl, rfl⟩
              rw [hnewlen it hit1]
              rcases hchase with h | h
              · omega
              · omega
          · intro u hu hunq
            by_cases huc : u = current
            · subst huc
              left
              intro e' he'
              exact hEc e' he'
            · rcases hcov u hu with hu1 | hu1
              · have hnq : u ∉ ((current, path) :: rest).map Prod.fst := by
                  simp only [List.map_cons, List.mem_cons]
                  rintro (h | h)
                  · exact huc h
                  · exact hunq (by rw [List.map_append]; exact List.mem_append_left _ h)
                rcases hP u hu1 hnq with hleft | hright
                · left
                  intro e' he'
                  rw [hext]
                  exact List.mem_append_left _ (hleft e' he')
                · right
                  exact hright
              · exact absurd (by rw [List.map_append]; exact List.mem_append_right _ hu1) hunq

/-- C9 (implicit): whenever the BFS resolver returns a path for a pair
with distinct (normalized) endpoints, that path is a shortest one: no
valid edge chain of the graph from the start to the end has fewer steps.
The breadth-first frontier with enqueue-time visiting dequeues entries in
non-decreasing depth order, so the first edge reaching the target closes
a minimum-length path. -/
theorem find_path_bfs_shortest (g : Graph) (a b : String) (maxDepth : Nat)
    (res : List Step) (hab : a ≠ b)
    (hres : find_path_bfs g a b maxDepth = some res) :
    ∀ c, IsChain g a c b → res.length ≤ c.length := by
  unfold find_path_bfs at hres
  rw [if_neg hab] at hres
  refine bfsLoop_shortest _ [(a, [])] [a] res (by simp) (by simpa using Ne.symm hab)
    ?_ (by simp) (by simp) (by simp) ?_ ?_ hres
  · intro it hit
    simp only [List.mem_singleton] at hit
    subst hit
    exact ⟨rfl, by simp⟩
  · intro it hit c hc
    simp only [List.mem_singleton] at hit
    subst hit
    simp
  · intro u hu hunq
    simp only [List.mem_singleton] at hu
    simp [hu] at hunq

/-- A graph with a direct edge and a two-step detour from `IA` to `IB`,
with the detour`s first edge enumerated first. -/
def demoGraph2 : Graph :=
  [("IA", [⟨"IM", "MRA", "references"⟩, ⟨"IB", "BRA", "references"⟩]),
   ("IM", [⟨"IB", "BOA", "owns"⟩])]

/-- Closed witness for C9: on `demoGraph2`, BFS returns the 1-step direct
path, which is no longer than the explicit 2-step chain through `IM`. -/
theorem find_path_bfs_shortest_witness :
    ∃ res, find_path_bfs demoGraph2 "IA" "IB" 5 = some res ∧
      res.length ≤
        ([{ «from» := "IA", «to» := "IM", via := "MRA", type := "references" },
          { «from» := "IM", «to» := "IB", via := "BOA", type := "owns" }] : List Step).length := by
  refine ⟨[{ «from» := "IA", «to» := "IB", via := "BRA", type := "references" }], by decide, ?_⟩
  refine find_path_bfs_shortest demoGraph2 "IA" "IB" 5 _ (by decide) (by decide) _ ?_
  refine ⟨⟨⟨"IM", "MRA", "references"⟩, by decide, by decide⟩, ?_⟩
  exact ⟨⟨⟨"IB", "BOA", "owns"⟩, by decide, by decide⟩, rfl⟩

/-! ## Suffix index (`liblcm_extractor` build) and
`resolve_pythonic_property` (`server.py`) -/

/-- The fields of an extracted property record that the suffix index
reads: `name`, `pythonic_name` (the suffix-free alias) and `kind` (the
two-letter relationship kind); the extractor's other fields play no role
here. -/
structure PropRec where
  name : String
  pythonic_name : String
  kind : String
deriving DecidableEq, Repr

/-- One entry of `by_pythonic_name[pythonic]`:
`{"entity": ..., "full_name": ..., "kind": ...}`. -/
structure PythonicMatch where
  entity : String
  full_name : String
  kind : String
deriving DecidableEq, Repr

/-- The entry of `by_full_name["Entity.FullName"]`:
`{"entity": ..., "pythonic_name": ..., "kind": ...}`. -/
structure FullMatch where
  entity : String
  pythonic_name : String
  kind : String
deriving DecidableEq, Repr

/-- The two maps of `api_doc["suffix_index"]`. -/
structure SuffixIndex where
  by_pythonic_name : List (String × List PythonicMatch)
  by_full_name : List (String × FullMatch)
deriving DecidableEq, Repr

/-- The six suffixed relationship kinds,
`("OA", "OS", "OC", "RA", "RS", "RC")`. -/
def suffixKinds : List String := ["OA", "OS", "OC", "RA", "RS", "RC"]

/-- The dict appended to `by_pythonic_name[pythonic]`. -/
def pythonicMatchOf (entityId : String) (prop : PropRec) : PythonicMatch :=
  { entity := entityId, full_name := prop.name, kind := prop.kind }

/-- The dict stored at `by_full_name["Entity.FullName"]`. -/
def fullMatchOf (entityId : String) (prop : PropRec) : FullMatch :=
  { entity := entityId, pythonic_name := prop.pythonic_name, kind := prop.kind }

/-- One inner-loop iteration of the suffix-index build: a relationship
property whose alias differs from its name is appended to its pythonic
bucket and set (overwriting) under its `"Entity.FullName"` key. -/
def addProp (entityId : String) (idx : SuffixIndex) (prop : PropRec) : SuffixIndex :=
  if prop.kind ∈ suffixKinds ∧ prop.pythonic_name ≠ prop.name then
    { by_pythonic_name :=
        updateA prop.pythonic_name [] (fun l => l ++ [pythonicMatchOf entityId prop])
          idx.by_pythonic_name,
      by_full_name :=
        updateA (entityId ++ "." ++ prop.name) (fullMatchOf entityId prop)
          (fun _ => fullMatchOf entityId prop) idx.by_full_name }
  else idx

/-- The outer loop: all properties of one entity. -/
def addEntity (idx : SuffixIndex) (ep : String × List PropRec) : SuffixIndex :=
  ep.2.foldl (addProp ep.1) idx

/-- The suffix-index build of `liblcm_extractor`: both loops, then the
per-pythonic stable sort of each bucket by entity name. -/
def build_suffix_index (entities : List (String × List PropRec)) : SuffixIndex :=
  let idx := entities.foldl addEntity { by_pythonic_name := [], by_full_name := [] }
  { by_pythonic_name :=
      idx.by_pythonic_name.map
        (fun kv => (kv.1, isort (fun a b => decide (a.entity ≤ b.entity)) kv.2)),
    by_full_name := idx.by_full_name }

/-- One element of the list returned by `resolve_pythonic_property`.  The
pythonic-branch dicts carry no `pythonic_name` key (modelled `none`); the
full-name-branch dicts carry the alias (`some`). -/
structure ResolvedProp where
  entity : String
  full_name : String
  pythonic_name : Option String
  kind : String
deriving DecidableEq, Repr

/-- `key.endswith("." + name)` of the context-free full-name scan. -/
def endsWithDot (key name : String) : Bool :=
  (("." ++ name).toList).isSuffixOf key.toList

/-- A pythonic-branch result dict: `{entity, full_name, kind}` (no
`pythonic_name` key — modelled `none`). -/
def pythonicToResolved (m : PythonicMatch) : ResolvedProp :=
  { entity := m.entity, full_name := m.full_name, pythonic_name := none, kind := m.kind }

/-- A full-name-branch result dict:
`{entity, full_name := name, pythonic_name, kind}`. -/
def fullToResolved (name : String) (m : FullMatch) : ResolvedProp :=
  { entity := m.entity, full_name := name, pythonic_name := some m.pythonic_name,
    kind := m.kind }

/-- The pythonic lookup of `resolve_pythonic_property`: the matches of
`by_pythonic_name[name]`, filtered to the context entity when given. -/
def pythonicBranch (si : SuffixIndex) (name : String)
    (context_entity : Option String) : List ResolvedProp :=
  match lookupA name si.by_pythonic_name with
  | some ms =>
    let selected : List PythonicMatch :=
      match context_entity with
      | some e => ms.filter (fun m => m.entity = e)
      | none => ms
    selected.map pythonicToResolved
  | none => []

/-- The full-name fallback of `resolve_pythonic_property`:
`"<context>.<name>"` with a context entity, an `endswith` scan over all
keys without one. -/
def fullBranch (si : SuffixIndex) (name : String)
    (context_entity : Option String) : List ResolvedProp :=
  match context_entity with
  | some e =>
    match lookupA (e ++ "." ++ name) si.by_full_name with
    | some m => [fullToResolved name m]
    | none => []
  | none =>
    si.by_full_name.filterMap (fun km =>
      if endsWithDot km.1 name then some (fullToResolved name km.2) else none)

/-- `resolve_pythonic_property(name, context_entity)`: try the pythonic
map first; only if that yields nothing (`if not results:`), consult the
full-name map. -/
def resolve_pythonic_property (idx : Option SuffixIndex) (name : String)
    (context_entity : Option String) : List ResolvedProp :=
  match idx with
  | none => []
  | some si =>
    if pythonicBranch si name context_entity ≠ [] then
      pythonicBranch si name context_entity
    else fullBranch si name context_entity

/-! ## Claim C7: soundness and round-trip of suffix resolution -/

theorem lookupA_updateA_ne {k k' : String} (hne : k' ≠ k) (dflt : β) (f : β → β)
    (l : List (String × β)) :
    lookupA k' (updateA k dflt f l) = lookupA k' l := by
  have hkk : ¬ (k = k') := fun h => hne h.symm
  induction l with
  | nil => simp [updateA, lookupA, hkk]
  | cons kv rest ih =>
    obtain ⟨k2, v⟩ := kv
    by_cases hk : k2 = k
    · subst hk
      simp [updateA, lookupA, hkk]
    · simp [updateA, lookupA, hk, ih]

theorem lookupA_map_values (g : β → γ) (k : String) (l : List (String × β)) :
    lookupA k (l.map (fun kv => (kv.1, g kv.2))) = (lookupA k l).map g := by
  induction l with
  | nil => simp [lookupA]
  | cons kv rest ih =>
    obtain ⟨k2, v⟩ := kv
    by_cases hk : k2 = k <;> simp [lookupA, hk, ih]

theorem dotfree_append_inj : ∀ (a a' b b' : List Char), '.' ∉ a → '.' ∉ a' →
    a ++ '.' :: b = a' ++ '.' :: b' → a = a' ∧ b = b' := by
  intro a
  induction a with
  | nil =>
    intro a' b b' _ ha'
    cases a' with
    | nil => simp
    | cons c rest =>
      intro h
      simp only [List.nil_append, List.cons_append, List.cons.injEq] at h
      exact absurd (h.1 ▸ List.mem_cons_self _ _) ha'
  | cons c rest ih =>
    intro a' b b' ha ha'
    cases a' with
    | nil =>
      intro h
      simp only [List.cons_append, List.nil_append, List.cons.injEq] at h
      exact absurd (h.1 ▸ List.mem_cons_self _ _) ha
    | cons c' rest' =>
      intro h
      simp only [List.cons_append, List.cons.injEq] at h
      obtain ⟨rfl, h2⟩ := h
      have := ih rest' b b' (fun hm => ha (List.mem_cons_of_mem _ hm))
        (fun hm => ha' (List.mem_cons_of_mem _ hm)) h2
      exact ⟨by rw [this.1], this.2⟩

/-- A pythonic-bucket entry really records a property of its entity. -/
def MatchOrigin (entities : List (String × List PropRec)) (P : String)
    (m : PythonicMatch) : Prop :=
  ∃ props, (m.entity, props) ∈ entities ∧ ∃ prop ∈ props,
    prop.name = m.full_name ∧ prop.pythonic_name = P ∧ prop.kind = m.kind

/-- Soundness of `by_pythonic_name` with respect to the source records. -/
def PSound (entities : List (String × List PropRec)) (idx : SuffixIndex) : Prop :=
  ∀ P ms, lookupA P idx.by_pythonic_name = some ms → ∀ m ∈ ms, MatchOrigin entities P m

/-- Soundness of `by_full_name` with respect to the source records. -/
def FSound (entities : List (String × List PropRec)) (idx : SuffixIndex) : Prop :=
  ∀ key fm, lookupA key idx.by_full_name = some fm →
    ∃ props, (fm.entity, props) ∈ entities ∧ ∃ prop ∈ props,
      key = fm.entity ++ "." ++ prop.name ∧ prop.pythonic_name = fm.pythonic_name ∧
      prop.kind = fm.kind

/-- Every full-name entry's alias maps back to a pythonic bucket holding
the corresponding match. -/
def RSound (idx : SuffixIndex) : Prop :=
  ∀ key fm, lookupA key idx.by_full_name = some fm →
    ∃ ms full, lookupA fm.pythonic_name idx.by_pythonic_name = some ms ∧
      key = fm.entity ++ "." ++ full ∧
      ({ entity := fm.entity, full_name := full, kind := fm.kind } : PythonicMatch) ∈ ms

theorem addProp_preserves {entities : List (String × List PropRec)}
    {entityId : String} {props : List PropRec} (hent : (entityId, props) ∈ entities)
    {prop : PropRec} (hprop : prop ∈ props) (idx : SuffixIndex)
    (h : PSound entities idx ∧ FSound entities idx ∧ RSound idx) :
    PSound entities (addProp entityId idx prop) ∧
    FSound entities (addProp entityId idx prop) ∧
    RSound (addProp entityId idx prop) := by
  obtain ⟨hp, hf, hr⟩ := h
  unfold addProp
  by_cases hc : prop.kind ∈ suffixKinds ∧ prop.pythonic_name ≠ prop.name
  · rw [if_pos hc]
    refine ⟨?_, ?_, ?_⟩
    · intro P ms hms m hm
      by_cases hP : P = prop.pythonic_name
      · subst hP
        rw [lookupA_updateA_self] at hms
        obtain rfl : ((lookupA prop.pythonic_name idx.by_pythonic_name).getD []) ++
            [pythonicMatchOf entityId prop] = ms := by
          simpa using hms
        rcases List.mem_append.mp hm with hm1 | hm1
        · cases hold : lookupA prop.pythonic_name idx.by_pythonic_name with
          | none => rw [hold] at hm1; simp at hm1
          | some old =>
            rw [hold] at hm1
            exact hp prop.pythonic_name old hold m hm1
        · obtain rfl : m = pythonicMatchOf entityId prop := by simpa using hm1
          exact ⟨props, hent, prop, hprop, rfl, rfl, rfl⟩
      · rw [lookupA_updateA_ne hP] at hms
        exact hp P ms hms m hm
    · intro key fm hfm
      by_cases hK : key = entityId ++ "." ++ prop.name
      · subst hK
        rw [lookupA_updateA_self] at hfm
        obtain rfl : fullMatchOf entityId prop = fm := by simpa using hfm
        exact ⟨props, hent, prop, hprop, rfl, rfl, rfl⟩
      · rw [lookupA_updateA_ne hK] at hfm
        exact hf key fm hfm
    · intro key fm hfm
      by_cases hK : key = entityId ++ "." ++ prop.name
      · subst hK
        rw [lookupA_updateA_self] at hfm
        obtain rfl : fullMatchOf entityId prop = fm := by simpa using hfm
        refine ⟨_, prop.name, lookupA_updateA_self _ _ _ _, rfl, ?_⟩
        simp [pythonicMatchOf, fullMatchOf]
      · rw [lookupA_updateA_ne hK] at hfm
        obtain ⟨ms, full, hms, hkey, hmem⟩ := hr key fm hfm
        by_cases hP : fm.pythonic_name = prop.pythonic_name
        · rw [hP]
          refine ⟨_, full, lookupA_updateA_self _ _ _ _, hkey, ?_⟩
          rw [← hP, hms]
          simp only [Option.getD_some]
          exact List.mem_append_left _ hmem
        · refine ⟨ms, full, ?_, hkey, hmem⟩
          rw [lookupA_updateA_ne hP]
          exact hms
  · rw [if_neg hc]
    exact ⟨hp, hf, hr⟩

theorem build_suffix_index_sound (entities : List (String × List PropRec)) :
    PSound entities (build_suffix_index entities) ∧
    FSound entities (build_suffix_index entities) ∧
    RSound (build_suffix_index entities) := by
  have hbase : ∀ (es : List (String × List PropRec)) (idx : SuffixIndex),
      (∀ ep ∈ es, ep ∈ entities) →
      PSound entities idx ∧ FSound entities idx ∧ RSound idx →
      PSound entities (es.foldl addEntity idx) ∧
      FSound entities (es.foldl addEntity idx) ∧
      RSound (es.foldl addEntity idx) := by
    intro es
    induction es with
    | nil => intro idx _ h; simpa using h
    | cons ep rest ih =>
      intro idx hmem h
      simp only [List.foldl_cons]
      refine ih _ (fun x hx => hmem x (List.mem_cons_of_mem _ hx)) ?_
      have hent : (ep.1, ep.2) ∈ entities := hmem ep (List.mem_cons_self _ _)
      unfold addEntity
      have hinner : ∀ (ps : List PropRec) (idx' : SuffixIndex),
          (∀ q ∈ ps, q ∈ ep.2) →
          PSound entities idx' ∧ FSound entities idx' ∧ RSound idx' →
          PSound entities (ps.foldl (addProp ep.1) idx') ∧
          FSound entities (ps.foldl (addProp ep.1) idx') ∧
          RSound (ps.foldl (addProp ep.1) idx') := by
        intro ps
        induction ps with
        | nil => intro idx' _ h'; simpa using h'
        | cons q qs ihq =>
          intro idx' hq h'
          simp only [List.foldl_cons]
          refine ihq _ (fun x hx => hq x (List.mem_cons_of_mem _ hx)) ?_
          exact addProp_preserves hent (hq q (List.mem_cons_self _ _)) idx' h'
      exact hinner ep.2 idx (fun q hq => hq) h
  have h0 : PSound entities { by_pythonic_name := [], by_full_name := [] } ∧
      FSound entities { by_pythonic_name := [], by_full_name := [] } ∧
      RSound { by_pythonic_name := [], by_full_name := [] } := by
    refine ⟨?_, ?_, ?_⟩ <;> intro a b hab <;> simp [lookupA] at hab
  have hfold := hbase entities _ (fun ep hep => hep) h0
  obtain ⟨hp, hf, hr⟩ := hfold
  unfold build_suffix_index
  refine ⟨?_, ?_, ?_⟩
  · intro P ms hms m hm
    simp only at hms
    rw [lookupA_map_values] at hms
    cases hold : lookupA P (entities.foldl addEntity
        { by_pythonic_name := [], by_full_name := [] }).by_pythonic_name with
    | none => rw [hold] at hms; simp at hms
    | some old =>
      rw [hold] at hms
      obtain rfl : isort (fun a b => decide (a.entity ≤ b.entity)) old = ms := by
        simpa using hms
      exact hp P old hold m ((mem_isort _ _ _).mp hm)
  · intro key fm hfm
    exact hf key fm hfm
  · intro key fm hfm
    simp only at hfm
    obtain ⟨ms, full, hms, hkey, hmem⟩ := hr key fm hfm
    refine ⟨isort (fun a b => decide (a.entity ≤ b.entity)) ms, full, ?_, hkey, ?_⟩
    · simp only
      rw [lookupA_map_values, hms]
      rfl
    · exact (mem_isort _ _ _).mpr hmem

theorem mem_pythonicBranch_pythonic_none {si : SuffixIndex} {name : String}
    {ctx : Option String} {r : ResolvedProp} (h : r ∈ pythonicBranch si name ctx) :
    r.pythonic_name = none := by
  unfold pythonicBranch at h
  cases hlook : lookupA name si.by_pythonic_name with
  | none => rw [hlook] at h; simp at h
  | some ms =>
    rw [hlook] at h
    simp only at h
    obtain ⟨m, _, hform⟩ := List.mem_map.mp h
    rw [← hform]
    rfl

theorem mem_pythonicBranch_ctx {si : SuffixIndex} {P E : String} {r : ResolvedProp}
    (h : r ∈ pythonicBranch si P (some E)) :
    ∃ ms m, lookupA P si.by_pythonic_name = some ms ∧ m ∈ ms ∧ m.entity = E ∧
      r = pythonicToResolved m := by
  unfold pythonicBranch at h
  cases hlook : lookupA P si.by_pythonic_name with
  | none => rw [hlook] at h; simp at h
  | some ms =>
    rw [hlook] at h
    simp only at h
    obtain ⟨m, hmf, hform⟩ := List.mem_map.mp h
    obtain ⟨hms, hmE⟩ := List.mem_filter.mp hmf
    exact ⟨ms, m, rfl, hms, by simpa using hmE, hform.symm⟩

theorem mem_fullBranch_ctx {si : SuffixIndex} {F E : String} {r : ResolvedProp}
    (h : r ∈ fullBranch si F (some E)) :
    ∃ fm, lookupA (E ++ "." ++ F) si.by_full_name = some fm ∧ r = fullToResolved F fm := by
  unfold fullBranch at h
  simp only at h
  cases hfull : lookupA (E ++ "." ++ F) si.by_full_name with
  | none => rw [hfull] at h; simp at h
  | some fm =>
    rw [hfull] at h
    simp only [List.mem_singleton] at h
    exact ⟨fm, rfl, h⟩

/-- C7: over the index built from the source records, (a) resolving a
suffix-free name `P` with context entity `E` returns only pythonic-branch
entries whose full (suffixed) name is a property of `E` whose recorded
alias is `P` and whose relationship kind is the recorded one; and (b)
resolving a full suffixed name `F` with context `E` (entity names being
dot-free) round-trips: the returned alias maps back through
`by_pythonic_name` to the very same `(E, F, kind)` entry. -/
theorem resolve_pythonic_sound_and_roundtrip (entities : List (String × List PropRec)) :
    (∀ (P E : String) (r : ResolvedProp),
      r ∈ resolve_pythonic_property (some (build_suffix_index entities)) P (some E) →
      r.pythonic_name = none →
      r.entity = E ∧ ∃ props, (E, props) ∈ entities ∧ ∃ prop ∈ props,
        prop.name = r.full_name ∧ prop.pythonic_name = P ∧ prop.kind = r.kind) ∧
    (∀ (F E : String) (r : ResolvedProp),
      (∀ ep ∈ entities, ('.' : Char) ∉ ep.1.toList) → ('.' : Char) ∉ E.toList →
      r ∈ resolve_pythonic_property (some (build_suffix_index entities)) F (some E) →
      ∀ p, r.pythonic_name = some p →
      r.entity = E ∧ r.full_name = F ∧
      ∃ ms, lookupA p (build_suffix_index entities).by_pythonic_name = some ms ∧
        ({ entity := E, full_name := F, kind := r.kind } : PythonicMatch) ∈ ms) := by
  obtain ⟨hp, hf, hr⟩ := build_suffix_index_sound entities
  constructor
  · intro P E r hmem hnone
    have hmem2 : r ∈ (if pythonicBranch (build_suffix_index entities) P (some E) ≠ [] then
        pythonicBranch (build_suffix_index entities) P (some E)
      else fullBranch (build_suffix_index entities) P (some E)) := hmem
    by_cases hne : pythonicBranch (build_suffix_index entities) P (some E) ≠ []
    · rw [if_pos hne] at hmem2
      obtain ⟨ms, m, hlook, hms, hmE, hform⟩ := mem_pythonicBranch_ctx hmem2
      obtain ⟨props, hprops, prop, hpp, hname, hpyth, hkind⟩ := hp P ms hlook m hms
      subst hform
      exact ⟨hmE, props, hmE ▸ hprops, prop, hpp, hname, hpyth, hkind⟩
    · rw [if_neg hne] at hmem2
      obtain ⟨fm, _, hform⟩ := mem_fullBranch_ctx hmem2
      rw [hform] at hnone
      simp [fullToResolved] at hnone
  · intro F E r hdot hEdot hmem p hsome
    have hmem2 : r ∈ (if pythonicBranch (build_suffix_index entities) F (some E) ≠ [] then
        pythonicBranch (build_suffix_index entities) F (some E)
      else fullBranch (build_suffix_index entities) F (some E)) := hmem
    by_cases hne : pythonicBranch (build_suffix_index entities) F (some E) ≠ []
    · rw [if_pos hne] at hmem2
      rw [mem_pythonicBranch_pythonic_none hmem2] at hsome
      cases hsome
    · rw [if_neg hne] at hmem2
      obtain ⟨fm, hfull, hform⟩ := mem_fullBranch_ctx hmem2
      obtain ⟨msr, full, hmsr, hkey, hmatch⟩ := hr _ fm hfull
      obtain ⟨props, hprops, prop, hpp, hkeyf, hpyth, hkind⟩ := hf _ fm hfull
      have hentdot : ('.' : Char) ∉ fm.entity.toList := hdot _ hprops
      have hkeyl : E.toList ++ '.' :: F.toList = fm.entity.toList ++ '.' :: full.toList := by
        have h2 := congrArg String.data hkey
        simpa [String.data_append] using h2
      obtain ⟨hEe, hFf⟩ := dotfree_append_inj _ _ _ _ hEdot hentdot hkeyl
      have hEe' : E = fm.entity := String.ext hEe
      have hFf' : F = full := String.ext hFf
      have hpfm : p = fm.pythonic_name := by
        rw [hform] at hsome
        simpa [fullToResolved] using hsome.symm
      have hkr : r.kind = fm.kind := by rw [hform]; rfl
      refine ⟨by rw [hform]; exact hEe'.symm ▸ rfl, by rw [hform]; rfl,
        msr, by rw [hpfm]; exact hmsr, ?_⟩
      have heq : ({ entity := E, full_name := F, kind := r.kind } : PythonicMatch) =
          { entity := fm.entity, full_name := full, kind := fm.kind } := by
        rw [hEe', hFf', hkr]
      rw [heq]
      exact hmatch

/-- A one-entity record set for concrete evaluation of the suffix index. -/
def demoRecords : List (String × List PropRec) :=
  [("ILexEntry", [{ name := "SensesOS", pythonic_name := "Senses", kind := "OS" }])]

/-- Closed witness for C7 over `demoRecords`: resolving `"Senses"` on
`ILexEntry` yields the recorded suffixed property of `ILexEntry`, and
resolving `"SensesOS"` round-trips through the alias to the same entry. -/
theorem resolve_pythonic_sound_and_roundtrip_witness :
    (∃ props, ("ILexEntry", props) ∈ demoRecords ∧ ∃ prop ∈ props,
      prop.name = "SensesOS" ∧ prop.pythonic_name = "Senses" ∧ prop.kind = "OS") ∧
    (∃ ms, lookupA "Senses" (build_suffix_index demoRecords).by_pythonic_name = some ms ∧
      ({ entity := "ILexEntry", full_name := "SensesOS", kind := "OS" } : PythonicMatch) ∈ ms) := by
  have hA := (resolve_pythonic_sound_and_roundtrip demoRecords).1
    "Senses" "ILexEntry" (pythonicToResolved
      { entity := "ILexEntry", full_name := "SensesOS", kind := "OS" })
    (by decide) (by decide)
  have hB := (resolve_pythonic_sound_and_roundtrip demoRecords).2
    "SensesOS" "ILexEntry" (fullToResolved "SensesOS"
      { entity := "ILexEntry", pythonic_name := "Senses", kind := "OS" })
    (by decide) (by decide) (by decide) "Senses" (by decide)
  exact ⟨hA.2, hB.2.2⟩

/-! ## Lexical search (`handle_search_by_capability`, keyword path) -/

/-- A method record of one corpus.  `description`/`summary` are optional
keys (the code reads them with `.get(key, "")` defaults). -/
structure MethodRec where
  name : String
  signature : String
  description : Option String
  summary : Option String
deriving DecidableEq, Repr

/-- A property record of the LibLCM corpus as read by the search
(`pythonic_name` defaults to the name when the key is absent). -/
structure SearchPropRec where
  name : String
  pythonic_name : Option String
  description : Option String
  kind : Option String
  target_type : Option String
deriving DecidableEq, Repr

/-- One entity of a search corpus. -/
structure SearchEntity where
  methods : List MethodRec
  properties : List SearchPropRec
  category : Option String
deriving DecidableEq, Repr

/-- One corpus (`api_index.flexlibs2` / `flexlibs_stable` / `liblcm`). -/
structure IndexData where
  entities : List (String × SearchEntity)
deriving DecidableEq, Repr

/-- One ranked result dict.  The method and property dicts carry
different key sets; absent keys are modelled `none`. -/
structure SearchItem where
  score : Nat
  source : String
  entity : String
  name : String
  type : String
  signature : Option String
  description : String
  category : String
  pythonic_name : Option String
  kind : Option String
  target_type : Option String
deriving DecidableEq, Repr

/-- ASCII lowercasing, `str.lower()`. -/
def lcStr (s : String) : String := String.mk (s.toList.map Char.toLower)

/-- Python `needle in hay` on strings: substring containment. -/
def containsSub (hay needle : String) : Bool := decide (needle.toList <:+: hay.toList)

/-- The method scoring loop: `+1` per expanded term found in the
lowercased `"name description summary"` blob, `+2` per term found in the
lowercased name, on top of the mode boost.  `terms` stands for the
`expanded_terms` set (distinct, lowercased). -/
def methodScore (terms : List String) (boost : Nat) (m : MethodRec) : Nat :=
  let text := lcStr (m.name ++ " " ++ m.description.getD "" ++ " " ++ m.summary.getD "")
  terms.foldl
    (fun sc term =>
      let sc := if containsSub text term then sc + 1 else sc
      if containsSub (lcStr m.name) term then sc + 2 else sc)
    boost

/-- The property scoring loop (LibLCM only): `+1` per term in the
lowercased `"name pythonic description kind"` blob, `+3` per term equal
to the lowercased name or alias. -/
def propScore (terms : List String) (boost : Nat) (p : SearchPropRec) : Nat :=
  let pyname := p.pythonic_name.getD p.name
  let text := lcStr (p.name ++ " " ++ pyname ++ " " ++ p.description.getD "" ++ " " ++
    p.kind.getD "")
  terms.foldl
    (fun sc term =>
      let sc := if containsSub text term then sc + 1 else sc
      if term = lcStr p.name ∨ term = lcStr pyname then sc + 3 else sc)
    boost

/-- The method item appended when its score beats the boost. -/
def methodItem (sourceName entityName : String) (en : SearchEntity) (score : Nat)
    (m : MethodRec) : SearchItem :=
  { score := score, source := sourceName, entity := entityName, name := m.name,
    type := "method", signature := some m.signature,
    description := (m.summary.getD (m.description.getD "")).take 150,
    category := en.category.getD "general", pythonic_name := none, kind := none,
    target_type := none }

/-- The property item appended when its score beats the boost. -/
def propItem (sourceName entityName : String) (en : SearchEntity) (score : Nat)
    (p : SearchPropRec) : SearchItem :=
  { score := score, source := sourceName, entity := entityName, name := p.name,
    type := "property", signature := none,
    description := (p.description.getD "").take 150,
    category := en.category.getD "general",
    pythonic_name := if p.pythonic_name.getD p.name ≠ p.name
      then some (p.pythonic_name.getD p.name) else none,
    kind := p.kind, target_type := p.target_type }

/-- `search_source(source_name, index_data, boost)`: per entity, score
every method (and, for the LibLCM corpus only, every property) and keep
exactly the items whose score exceeds the pure boost
(`if score > boost`). -/
def search_source (terms : List String) (sourceName : String)
    (indexData : Option IndexData) (boost : Nat) : List SearchItem :=
  match indexData with
  | none => []
  | some idx =>
    idx.entities.flatMap (fun en =>
      (en.2.methods.filterMap (fun m =>
        let score := methodScore terms boost m
        if boost < score then some (methodItem sourceName en.1 en.2 score m) else none)) ++
      (if sourceName = "liblcm" then
        en.2.properties.filterMap (fun p =>
          let score := propScore terms boost p
          if boost < score then some (propItem sourceName en.1 en.2 score p) else none)
      else []))

/-- The per-source boost of the primary loop: flexlibs2 entries are
boosted 5, flexlibs_stable 3, liblcm 0. -/
def boostOf : String → Nat
  | "flexlibs2" => 5
  | "flexlibs_stable" => 3
  | _ => 0

/-- One iteration of the `for source in config["primary"]` loop,
extending the result list and recording the source when its corpus is
loaded. -/
def primaryStep (terms : List String) (f2 fs ll : Option IndexData)
    (acc : List SearchItem × List String) (source : String) :
    List SearchItem × List String :=
  if source = "flexlibs2" ∧ f2.isSome then
    (acc.1 ++ search_source terms "flexlibs2" f2 5, acc.2 ++ ["flexlibs2"])
  else if source = "flexlibs_stable" ∧ fs.isSome then
    (acc.1 ++ search_source terms "flexlibs_stable" fs 3, acc.2 ++ ["flexlibs_stable"])
  else if source = "liblcm" ∧ ll.isSome then
    (acc.1 ++ search_source terms "liblcm" ll 0, acc.2 ++ ["liblcm"])
  else acc

/-- One iteration of the fallback loop (only the liblcm fallback is
handled by the code): search it when loaded and not already searched,
and report fallback use when it contributed items. -/
def fallbackStep (terms : List String) (ll : Option IndexData)
    (st : List SearchItem × List String × Bool) (source : String) :
    List SearchItem × List String × Bool :=
  if source = "liblcm" ∧ ll.isSome ∧ "liblcm" ∉ st.2.1 then
    let fr := search_source terms "liblcm" ll 0
    (st.1 ++ fr,
     (if fr ≠ [] then st.2.1 ++ ["liblcm (fallback)"] else st.2.1),
     (if fr ≠ [] then true else st.2.2))
  else st

/-- The raw (pre-sort) state of the keyword path: primary sources in
order, then the fallback loop when the primary results under-fill
`max_results`. -/
def assembleResults (terms : List String) (f2 fs ll : Option IndexData)
    (primary fallback : List String) (maxResults : Nat) :
    List SearchItem × List String × Bool :=
  let pr := primary.foldl (primaryStep terms f2 fs ll) ([], [])
  if pr.1.length < maxResults ∧ fallback ≠ [] then
    fallback.foldl (fallbackStep terms ll) (pr.1, pr.2, false)
  else (pr.1, pr.2, false)

/-- The keyword path of `handle_search_by_capability` after term
expansion: assemble the per-source results, stable-sort them by
descending score (`results.sort(key=..., reverse=True)` — Python sorts
stably), and truncate to `max_results`. -/
def handle_search_lexical (terms : List String) (f2 fs ll : Option IndexData)
    (primary fallback : List String) (maxResults : Nat) :
    List SearchItem × List String × Bool :=
  let st := assembleResults terms f2 fs ll primary fallback maxResults
  ((isort (fun a b => b.score ≤ a.score) st.1).take maxResults, st.2.1, st.2.2)

/-! ## Claim C6: ranking properties of the keyword path -/

theorem pairwise_insertLe (le : α → α → Bool)
    (htrans : ∀ a b c, le a b = true → le b c = true → le a c = true)
    (htotal : ∀ a b, le a b = true ∨ le b a = true)
    (x : α) (l : List α) (hl : List.Pairwise (fun a b => le a b = true) l) :
    List.Pairwise (fun a b => le a b = true) (insertLe le x l) := by
  induction l with
  | nil => simp [insertLe]
  | cons y ys ih =>
    by_cases h : le x y = true
    · rw [insertLe, if_pos h]
      refine List.pairwise_cons.mpr ⟨?_, hl⟩
      intro z hz
      rcases List.mem_cons.mp hz with rfl | hz
      · exact h
      · exact htrans x y z h ((List.pairwise_cons.mp hl).1 z hz)
    · rw [insertLe, if_neg h]
      have hyx : le y x = true := (htotal x y).resolve_left h
      refine List.pairwise_cons.mpr ⟨?_, ih (List.pairwise_cons.mp hl).2⟩
      intro z hz
      rcases (mem_insertLe le x ys z).mp hz with rfl | hz
      · exact hyx
      · exact (List.pairwise_cons.mp hl).1 z hz

theorem pairwise_isort (le : α → α → Bool)
    (htrans : ∀ a b c, le a b = true → le b c = true → le a c = true)
    (htotal : ∀ a b, le a b = true ∨ le b a = true)
    (l : List α) :
    List.Pairwise (fun a b => le a b = true) (isort le l) := by
  induction l with
  | nil => simp [isort]
  | cons x xs ih => exact pairwise_insertLe le htrans htotal x (isort le xs) ih

theorem filter_insertLe_key (key : α → Nat) (x : α) (l : List α) (s : Nat) :
    (insertLe (fun a b => decide (key b ≤ key a)) x l).filter (fun a => decide (key a = s)) =
      if key x = s then x :: l.filter (fun a => decide (key a = s))
      else l.filter (fun a => decide (key a = s)) := by
  induction l with
  | nil =>
    by_cases hx : key x = s <;> simp [insertLe, List.filter, hx]
  | cons y ys ih =>
    by_cases h : key y ≤ key x
    · rw [insertLe, if_pos (by simpa using h)]
      by_cases hx : key x = s <;> simp [List.filter_cons, hx]
    · rw [insertLe, if_neg (by simpa using h)]
      have hlt : key x < key y := Nat.lt_of_not_le h
      by_cases hx : key x = s
      · have hy : ¬ (key y = s) := by omega
        simp [List.filter_cons, hx, hy, ih]
      · simp [List.filter_cons, hx, ih]

theorem filter_isort_key (key : α → Nat) (l : List α) (s : Nat) :
    (isort (fun a b => decide (key b ≤ key a)) l).filter (fun a => decide (key a = s)) =
      l.filter (fun a => decide (key a = s)) := by
  induction l with
  | nil => simp [isort]
  | cons x xs ih =>
    rw [isort, filter_insertLe_key, ih]
    by_cases hx : key x = s <;> simp [List.filter_cons, hx]

theorem mem_search_source {terms : List String} {src : String} {idx : Option IndexData}
    {b : Nat} {it : SearchItem} (h : it ∈ search_source terms src idx b) :
    it.source = src ∧ b < it.score := by
  cases idx with
  | none => simp [search_source] at h
  | some d =>
    unfold search_source at h
    obtain ⟨en, hen, hit⟩ := List.mem_flatMap.mp h
    rcases List.mem_append.mp hit with h1 | h1
    · obtain ⟨m, hm, hform⟩ := List.mem_filterMap.mp h1
      simp only at hform
      split at hform
      · next hcond =>
        obtain rfl : methodItem src en.1 en.2 (methodScore terms b m) m = it := by
          simpa using hform
        exact ⟨rfl, hcond⟩
      · simp at hform
    · split at h1
      · obtain ⟨p, hp, hform⟩ := List.mem_filterMap.mp h1
        simp only at hform
        split at hform
        · next hcond =>
          obtain rfl : propItem src en.1 en.2 (propScore terms b p) p = it := by
            simpa using hform
          exact ⟨rfl, hcond⟩
        · simp at hform
      · simp at h1

theorem primary_foldl_boost {terms : List String} {f2 fs ll : Option IndexData} :
    ∀ (sources : List String) (acc : List SearchItem × List String),
      (∀ it ∈ acc.1, boostOf it.source < it.score) →
      ∀ it ∈ (sources.foldl (primaryStep terms f2 fs ll) acc).1,
        boostOf it.source < it.score := by
  intro sources
  induction sources with
  | nil => intro acc hacc; simpa using hacc
  | cons src rest ih =>
    intro acc hacc
    simp only [List.foldl_cons]
    refine ih _ ?_
    intro it hit
    unfold primaryStep at hit
    split at hit
    · rcases List.mem_append.mp hit with h1 | h1
      · exact hacc it h1
      · obtain ⟨hsrc, hlt⟩ := mem_search_source h1
        rw [hsrc]
        exact hlt
    · split at hit
      · rcases List.mem_append.mp hit with h1 | h1
        · exact hacc it h1
        · obtain ⟨hsrc, hlt⟩ := mem_search_source h1
          rw [hsrc]
          exact hlt
      · split at hit
        · rcases List.mem_append.mp hit with h1 | h1
          · exact hacc it h1
          · obtain ⟨hsrc, hlt⟩ := mem_search_source h1
            rw [hsrc]
            exact hlt
        · exact hacc it hit

theorem fallback_foldl_boost {terms : List String} {ll : Option IndexData} :
    ∀ (sources : List String) (st : List SearchItem × List String × Bool),
      (∀ it ∈ st.1, boostOf it.source < it.score) →
      ∀ it ∈ (sources.foldl (fallbackStep terms ll) st).1,
        boostOf it.source < it.score := by
  intro sources
  induction sources with
  | nil => intro st hst; simpa using hst
  | cons src rest ih =>
    intro st hst
    simp only [List.foldl_cons]
    refine ih _ ?_
    intro it hit
    unfold fallbackStep at hit
    split at hit
    · rcases List.mem_append.mp hit with h1 | h1
      · exact hst it h1
      · obtain ⟨hsrc, hlt⟩ := mem_search_source h1
        rw [hsrc]
        exact hlt
    · exact hst it hit

theorem assemble_boost (terms : List String) (f2 fs ll : Option IndexData)
    (primary fallback : List String) (maxResults : Nat) :
    ∀ it ∈ (assembleResults terms f2 fs ll primary fallback maxResults).1,
      boostOf it.source < it.score := by
  intro it hit
  unfold assembleResults at hit
  simp only at hit
  split at hit
  · exact fallback_foldl_boost fallback _
      (primary_foldl_boost primary ([], []) (by simp)) it hit
  · exact primary_foldl_boost primary ([], []) (by simp) it hit

/-- C6: the keyword search path returns at most `max_results` items,
each scoring strictly above its source's pure boost (so each matched at
least one expanded term), in non-increasing score order produced by a
stable sort: filtering any score class of the sorted list yields exactly
the same subsequence as filtering the raw source-enumeration-ordered
list. -/
theorem lexical_search_ranked (terms : List String) (f2 fs ll : Option IndexData)
    (primary fallback : List String) (maxResults : Nat) :
    (handle_search_lexical terms f2 fs ll primary fallback maxResults).1.length ≤ maxResults ∧
    List.Pairwise (fun x y : SearchItem => y.score ≤ x.score)
      (handle_search_lexical terms f2 fs ll primary fallback maxResults).1 ∧
    (∀ it ∈ (handle_search_lexical terms f2 fs ll primary fallback maxResults).1,
      boostOf it.source < it.score) ∧
    (∀ s : Nat,
      ((isort (fun a b => b.score ≤ a.score)
          (assembleResults terms f2 fs ll primary fallback maxResults).1).filter
        (fun it => it.score = s)) =
      ((assembleResults terms f2 fs ll primary fallback maxResults).1.filter
        (fun it => it.score = s))) ∧
    (handle_search_lexical terms f2 fs ll primary fallback maxResults).1 =
      (isort (fun a b => b.score ≤ a.score)
        (assembleResults terms f2 fs ll primary fallback maxResults).1).take maxResults := by
  refine ⟨?_, ?_, ?_, ?_, rfl⟩
  · simpa [handle_search_lexical] using
      List.length_take_le maxResults
        (isort (fun a b => b.score ≤ a.score)
          (assembleResults terms f2 fs ll primary fallback maxResults).1)
  · have hs := pairwise_isort (fun a b : SearchItem => decide (b.score ≤ a.score))
      (fun a b c hab hbc => by
        simp only [decide_eq_true_eq] at hab hbc ⊢
        omega)
      (fun a b => by
        rcases Nat.le_total b.score a.score with h | h
        · exact Or.inl (by simpa using h)
        · exact Or.inr (by simpa using h))
      (assembleResults terms f2 fs ll primary fallback maxResults).1
    have hs2 := hs.sublist (List.take_sublist maxResults _)
    exact hs2.imp (fun h => by simpa using h)
  · intro it hit
    have hmem : it ∈ isort (fun a b : SearchItem => decide (b.score ≤ a.score))
        (assembleResults terms f2 fs ll primary fallback maxResults).1 :=
      List.take_subset _ _ hit
    exact assemble_boost terms f2 fs ll primary fallback maxResults it
      ((mem_isort _ _ _).mp hmem)
  · intro s
    exact filter_isort_key (fun it : SearchItem => it.score) _ s


/-! ## Claim C5: normalization invariance over volatile templates

"Two messages differing only in hex addresses, `line N` markers and long
quoted literals" is formalized as two instantiations of a common segment
template: shared literal segments interleaved with hex, line-number and
quoted-literal holes.  Well-formedness keeps every volatile match aligned
with a hole: no match may straddle a segment boundary.  The lemmas below
establish this scanner by scanner. -/

theorem subHex_cons_none {c : Char} {cs : List Char} (h : hexMatch (c :: cs) = none) :
    subHex (c :: cs) = c :: subHex cs := by
  rw [subHex, h]

theorem subHex_cons_some {c : Char} {cs r : List Char} (h : hexMatch (c :: cs) = some r) :
    subHex (c :: cs) = '0' :: 'x' :: '.' :: '.' :: '.' :: subHex r := by
  rw [subHex, h]

theorem subLine_cons_none {c : Char} {cs : List Char} (h : lineMatch (c :: cs) = none) :
    subLine (c :: cs) = c :: subLine cs := by
  rw [subLine, h]

theorem subLine_cons_some {c : Char} {cs r : List Char} (h : lineMatch (c :: cs) = some r) :
    subLine (c :: cs) = 'l' :: 'i' :: 'n' :: 'e' :: ' ' :: 'N' :: subLine r := by
  rw [subLine, h]

theorem subQuote_cons_none {c : Char} {cs : List Char} (h : quoteMatch (c :: cs) = none) :
    subQuote (c :: cs) = c :: subQuote cs := by
  rw [subQuote, h]

theorem subQuote_cons_some {c : Char} {cs r : List Char} (h : quoteMatch (c :: cs) = some r) :
    subQuote (c :: cs) = quoteChar :: '.' :: '.' :: '.' :: quoteChar :: subQuote r := by
  rw [subQuote, h]

/-- A scanner copies a block verbatim when no position of the block
starts a match (not even using characters of the right context `t`). -/
theorem scanner_skip (f : List Char → List Char) (M : List Char → Option (List Char))
    (hcons : ∀ c cs, M (c :: cs) = none → f (c :: cs) = c :: f cs) :
    ∀ (s t : List Char), (∀ s₁, s₁ <:+ s → s₁ ≠ [] → M (s₁ ++ t) = none) →
    f (s ++ t) = s ++ f t := by
  intro s
  induction s with
  | nil => intro t _; simp
  | cons c cs ih =>
    intro t hnone
    rw [List.cons_append,
      hcons c (cs ++ t) (hnone (c :: cs) (List.suffix_refl _) (by simp)),
      ih t (fun s₁ hs₁ hne => hnone s₁ (hs₁.trans (List.suffix_cons c cs)) hne)]
    simp

theorem hexMatch_some_shape {l r : List Char} (h : hexMatch l = some r) :
    ∃ d rest, l = '0' :: 'x' :: d :: rest ∧ isHexDig d = true := by
  unfold hexMatch at h
  split at h
  · next d rest =>
    split at h
    · next hd => exact ⟨d, rest, rfl, hd⟩
    · simp at h
  · simp at h

theorem lineMatch_some_shape {l r : List Char} (h : lineMatch l = some r) :
    ∃ d rest, l = 'l' :: 'i' :: 'n' :: 'e' :: ' ' :: d :: rest ∧ d.isDigit = true := by
  unfold lineMatch at h
  split at h
  · next d rest =>
    split at h
    · next hd => exact ⟨d, rest, rfl, hd⟩
    · simp at h
  · simp at h

theorem quoteMatch_some_head {l r : List Char} (h : quoteMatch l = some r) :
    ∃ cs, l = quoteChar :: cs := by
  match l with
  | [] => simp [quoteMatch] at h
  | c :: cs =>
    rw [quoteMatch_cons] at h
    split at h
    · next hc => exact ⟨cs, by rw [hc]⟩
    · simp at h

/-- `0x` followed by a hex digit at the head. -/
def hexStart : List Char → Bool
  | '0' :: 'x' :: d :: _ => isHexDig d
  | _ => false

/-- `line ` followed by a digit at the head. -/
def lineStart : List Char → Bool
  | 'l' :: 'i' :: 'n' :: 'e' :: ' ' :: d :: _ => d.isDigit
  | _ => false

/-- No position of `s` starts a hex-address match. -/
def NoHexStart (s : List Char) : Prop := ∀ s₁ ∈ s.tails, hexStart s₁ = false

/-- No position of `s` starts a `line N` match. -/
def NoLineStart (s : List Char) : Prop := ∀ s₁ ∈ s.tails, lineStart s₁ = false

/-- No position of `s` starts a long closed quoted literal: every
apostrophe is followed by fewer than 20 non-apostrophe characters before
the next apostrophe, or is never closed. -/
def NoLongQuote (s : List Char) : Prop := ∀ s₁ ∈ s.tails, quoteMatch s₁ = none

instance (s : List Char) : Decidable (NoHexStart s) :=
  inferInstanceAs (Decidable (∀ s₁ ∈ s.tails, hexStart s₁ = false))

instance (s : List Char) : Decidable (NoLineStart s) :=
  inferInstanceAs (Decidable (∀ s₁ ∈ s.tails, lineStart s₁ = false))

instance (s : List Char) : Decidable (NoLongQuote s) :=
  inferInstanceAs (Decidable (∀ s₁ ∈ s.tails, quoteMatch s₁ = none))

theorem hexStart_shape {l : List Char} (h : hexStart l = true) :
    ∃ d r, l = '0' :: 'x' :: d :: r ∧ isHexDig d = true := by
  unfold hexStart at h
  split at h
  · next d r => exact ⟨d, r, rfl, h⟩
  · simp at h

theorem lineStart_shape {l : List Char} (h : lineStart l = true) :
    ∃ d r, l = 'l' :: 'i' :: 'n' :: 'e' :: ' ' :: d :: r ∧ d.isDigit = true := by
  unfold lineStart at h
  split at h
  · next d r => exact ⟨d, r, rfl, h⟩
  · simp at h

theorem hexMatch_eq_none_of_start {l : List Char} (h : hexStart l = false) :
    hexMatch l = none := by
  unfold hexMatch
  split
  · next d rest =>
    have hd : isHexDig d = false := by
      rw [hexStart] at h
      exact h
    rw [hd]
    simp
  · rfl

theorem lineMatch_eq_none_of_start {l : List Char} (h : lineStart l = false) :
    lineMatch l = none := by
  unfold lineMatch
  split
  · next d rest =>
    have hd : d.isDigit = false := by
      rw [lineStart] at h
      exact h
    rw [hd]
    simp
  · rfl

theorem subHex_nil : subHex [] = [] := by
  rw [subHex]

theorem subLine_nil : subLine [] = [] := by
  rw [subLine]

theorem subQuote_nil : subQuote [] = [] := by
  rw [subQuote]

theorem subHex_eq_self {m : List Char} (h : NoHexStart m) : subHex m = m := by
  have hsk := scanner_skip subHex hexMatch (fun c cs hc => subHex_cons_none hc) m []
    (fun s₁ hs₁ _ => by
      rw [List.append_nil]
      exact hexMatch_eq_none_of_start (h s₁ ((List.mem_tails _ _).mpr hs₁)))
  simpa [subHex_nil] using hsk

theorem subLine_eq_self {m : List Char} (h : NoLineStart m) : subLine m = m := by
  have hsk := scanner_skip subLine lineMatch (fun c cs hc => subLine_cons_none hc) m []
    (fun s₁ hs₁ _ => by
      rw [List.append_nil]
      exact lineMatch_eq_none_of_start (h s₁ ((List.mem_tails _ _).mpr hs₁)))
  simpa [subLine_nil] using hsk

theorem subQuote_eq_self {m : List Char} (h : NoLongQuote m) : subQuote m = m := by
  have hsk := scanner_skip subQuote quoteMatch (fun c cs hc => subQuote_cons_none hc) m []
    (fun s₁ hs₁ _ => by
      rw [List.append_nil]
      exact h s₁ ((List.mem_tails _ _).mpr hs₁))
  simpa [subQuote_nil] using hsk

theorem suffix_singleton_getLast {c : Char} {s : List Char} (h : [c] <:+ s) :
    s.getLast? = some c := by
  obtain ⟨pre, rfl⟩ := h
  simp [List.getLast?_concat]

theorem not_suffix_of_not_mem {c : Char} {l s : List Char} (hc : c ∈ l) (hs : c ∉ s) :
    ¬ (l <:+ s) := fun h => hs (h.subset hc)

/-- Skip block for `subHex`: no internal hex start, and no match may
begin inside the block and extend into the right context `t`. -/
theorem hex_skip {s t : List Char} (hs : NoHexStart s)
    (h1 : ¬ (['0'] <:+ s ∧ ∃ d r, t = 'x' :: d :: r ∧ isHexDig d = true))
    (h2 : ¬ (['0', 'x'] <:+ s ∧ ∃ d, t.head? = some d ∧ isHexDig d = true)) :
    subHex (s ++ t) = s ++ subHex t := by
  refine scanner_skip subHex hexMatch (fun c cs h => subHex_cons_none h) s t ?_
  intro s₁ hs₁ hne
  cases hM : hexMatch (s₁ ++ t) with
  | none => rfl
  | some r =>
    exfalso
    obtain ⟨d, rest, heq, hd⟩ := hexMatch_some_shape hM
    cases s₁ with
    | nil => exact hne rfl
    | cons c1 s1 =>
      cases s1 with
      | nil =>
        simp only [List.cons_append, List.nil_append, List.cons.injEq] at heq
        exact h1 ⟨by rw [← heq.1]; exact hs₁, d, rest, heq.2, hd⟩
      | cons c2 s2 =>
        simp only [List.cons_append, List.cons.injEq] at heq
        obtain ⟨hc1, hc2, heq2⟩ := heq
        cases s2 with
        | nil =>
          refine h2 ⟨by rw [← hc1, ← hc2]; exact hs₁, d, ?_, hd⟩
          simp only [List.nil_append] at heq2
          rw [heq2]
          rfl
        | cons c3 s3 =>
          simp only [List.cons_append, List.cons.injEq] at heq2
          have hstart : hexStart (c1 :: c2 :: c3 :: s3) = true := by
            rw [hc1, hc2, hexStart, heq2.1]
            exact hd
          rw [hs _ ((List.mem_tails _ _).mpr hs₁)] at hstart
          exact Bool.false_ne_true hstart

/-- Skip block for `subLine`: no internal `line N` start, and no partial
`line ` prefix at the end of the block is completed by the right context. -/
theorem line_skip {s t : List Char} (hs : NoLineStart s)
    (h1 : ¬ (['l'] <:+ s ∧ ∃ d r, t = 'i' :: 'n' :: 'e' :: ' ' :: d :: r ∧ d.isDigit = true))
    (h2 : ¬ (['l', 'i'] <:+ s ∧ ∃ d r, t = 'n' :: 'e' :: ' ' :: d :: r ∧ d.isDigit = true))
    (h3 : ¬ (['l', 'i', 'n'] <:+ s ∧ ∃ d r, t = 'e' :: ' ' :: d :: r ∧ d.isDigit = true))
    (h4 : ¬ (['l', 'i', 'n', 'e'] <:+ s ∧ ∃ d r, t = ' ' :: d :: r ∧ d.isDigit = true))
    (h5 : ¬ (['l', 'i', 'n', 'e', ' '] <:+ s ∧ ∃ d r, t = d :: r ∧ d.isDigit = true)) :
    subLine (s ++ t) = s ++ subLine t := by
  refine scanner_skip subLine lineMatch (fun c cs h => subLine_cons_none h) s t ?_
  intro s₁ hs₁ hne
  cases hM : lineMatch (s₁ ++ t) with
  | none => rfl
  | some r =>
    exfalso
    obtain ⟨d, rest, heq, hd⟩ := lineMatch_some_shape hM
    cases s₁ with
    | nil => exact hne rfl
    | cons c1 s1 =>
      cases s1 with
      | nil =>
        simp only [List.cons_append, List.nil_append, List.cons.injEq] at heq
        exact h1 ⟨by rw [← heq.1]; exact hs₁, d, rest, heq.2, hd⟩
      | cons c2 s2 =>
        cases s2 with
        | nil =>
          simp only [List.cons_append, List.nil_append, List.cons.injEq] at heq
          exact h2 ⟨by rw [← heq.1, ← heq.2.1]; exact hs₁, d, rest, heq.2.2, hd⟩
        | cons c3 s3 =>
          cases s3 with
          | nil =>
            simp only [List.cons_append, List.nil_append, List.cons.injEq] at heq
            exact h3 ⟨by rw [← heq.1, ← heq.2.1, ← heq.2.2.1]; exact hs₁,
              d, rest, heq.2.2.2, hd⟩
          | cons c4 s4 =>
            cases s4 with
            | nil =>
              simp only [List.cons_append, List.nil_append, List.cons.injEq] at heq
              exact h4 ⟨by rw [← heq.1, ← heq.2.1, ← heq.2.2.1, ← heq.2.2.2.1]; exact hs₁,
                d, rest, heq.2.2.2.2, hd⟩
            | cons c5 s5 =>
              cases s5 with
              | nil =>
                simp only [List.cons_append, List.nil_append, List.cons.injEq] at heq
                exact h5 ⟨by
                  rw [← heq.1, ← heq.2.1, ← heq.2.2.1, ← heq.2.2.2.1, ← heq.2.2.2.2.1]
                  exact hs₁,
                  d, rest, heq.2.2.2.2.2, hd⟩
              | cons c6 s6 =>
                simp only [List.cons_append, List.cons.injEq] at heq
                have hstart : lineStart (c1 :: c2 :: c3 :: c4 :: c5 :: c6 :: s6) = true := by
                  rw [heq.1, heq.2.1, heq.2.2.1, heq.2.2.2.1, heq.2.2.2.2.1, lineStart,
                    heq.2.2.2.2.2.1]
                  exact hd
                rw [hs _ ((List.mem_tails _ _).mpr hs₁)] at hstart
                exact Bool.false_ne_true hstart

/-- Skip block for `subQuote`: a block with no apostrophe is copied
verbatim (a quoted-literal match must begin with an apostrophe). -/
theorem quote_skip {s t : List Char} (hs : quoteChar ∉ s) :
    subQuote (s ++ t) = s ++ subQuote t := by
  refine scanner_skip subQuote quoteMatch (fun c cs h => subQuote_cons_none h) s t ?_
  intro s₁ hs₁ hne
  cases hM : quoteMatch (s₁ ++ t) with
  | none => rfl
  | some r =>
    exfalso
    obtain ⟨cs, heq⟩ := quoteMatch_some_head hM
    cases s₁ with
    | nil => exact hne rfl
    | cons c1 s1 =>
      simp only [List.cons_append, List.cons.injEq] at heq
      exact hs (hs₁.subset (by rw [← heq.1]; exact List.mem_cons_self c1 s1))


theorem dropWhile_append_stop {p : Char → Bool} {a t : List Char}
    (ha : ∀ c ∈ a, p c = true) (ht : ∀ c, t.head? = some c → p c = false) :
    (a ++ t).dropWhile p = t := by
  induction a with
  | nil =>
    cases t with
    | nil => rfl
    | cons c t2 => simp [List.dropWhile_cons, ht c rfl]
  | cons c a2 ih =>
    have hc : p c = true := ha c (by simp)
    simp only [List.cons_append, List.dropWhile_cons, hc, if_true]
    exact ih (fun c2 hc2 => ha c2 (by simp [hc2]))

theorem takeWhile_append_stop {p : Char → Bool} {a t : List Char}
    (ha : ∀ c ∈ a, p c = true) (ht : ∀ c, t.head? = some c → p c = false) :
    (a ++ t).takeWhile p = a := by
  induction a with
  | nil =>
    cases t with
    | nil => rfl
    | cons c t2 => simp [List.takeWhile_cons, ht c rfl]
  | cons c a2 ih =>
    have hc : p c = true := ha c (by simp)
    simp only [List.cons_append, List.takeWhile_cons, hc, if_true]
    rw [ih (fun c2 hc2 => ha c2 (by simp [hc2]))]

/-- A hex hole is replaced in one step: `0x` plus a non-empty all-hex run
whose greedy extension stops at the right context. -/
theorem hex_hole {ds t : List Char} (hne : ds ≠ []) (hds : ∀ c ∈ ds, isHexDig c = true)
    (ht : ∀ c, t.head? = some c → isHexDig c = false) :
    subHex (('0' :: 'x' :: ds) ++ t) = '0' :: 'x' :: '.' :: '.' :: '.' :: subHex t := by
  cases ds with
  | nil => exact absurd rfl hne
  | cons d ds2 =>
    refine subHex_cons_some ?_
    have hd : isHexDig d = true := hds d (by simp)
    show hexMatch ('0' :: 'x' :: d :: (ds2 ++ t)) = some t
    simp only [hexMatch, hd, if_true]
    rw [show d :: (ds2 ++ t) = (d :: ds2) ++ t from rfl]
    rw [dropWhile_append_stop hds ht]

/-- A line hole is replaced in one step: `line ` plus a non-empty digit
run whose greedy extension stops at the right context. -/
theorem line_hole {ds t : List Char} (hne : ds ≠ []) (hds : ∀ c ∈ ds, c.isDigit = true)
    (ht : ∀ c, t.head? = some c → c.isDigit = false) :
    subLine (('l' :: 'i' :: 'n' :: 'e' :: ' ' :: ds) ++ t) =
      'l' :: 'i' :: 'n' :: 'e' :: ' ' :: 'N' :: subLine t := by
  cases ds with
  | nil => exact absurd rfl hne
  | cons d ds2 =>
    refine subLine_cons_some ?_
    have hd : d.isDigit = true := hds d (by simp)
    show lineMatch ('l' :: 'i' :: 'n' :: 'e' :: ' ' :: d :: (ds2 ++ t)) = some t
    simp only [lineMatch, hd, if_true]
    rw [show d :: (ds2 ++ t) = (d :: ds2) ++ t from rfl]
    rw [dropWhile_append_stop hds ht]

/-- A quoted hole is replaced in one step: an apostrophe, at least 20
apostrophe-free content characters, and a closing apostrophe. -/
theorem quote_hole {content t : List Char} (h20 : 20 ≤ content.length)
    (hq : quoteChar ∉ content) :
    subQuote ((quoteChar :: (content ++ [quoteChar])) ++ t) =
      quoteChar :: '.' :: '.' :: '.' :: quoteChar :: subQuote t := by
  refine subQuote_cons_some ?_
  have hct : ∀ c ∈ content, (fun x => decide (x ≠ quoteChar)) c = true := by
    intro c hc
    simp only [decide_eq_true_eq, ne_eq]
    exact fun hcq => hq (hcq ▸ hc)
  have hht : ∀ c, (quoteChar :: t).head? = some c →
      (fun x => decide (x ≠ quoteChar)) c = false := by
    intro c hc
    simp only [List.head?_cons, Option.some.injEq] at hc
    simp [← hc]
  rw [quoteMatch_cons]
  rw [if_pos rfl]
  simp only [List.append_eq]
  have hdw : List.dropWhile (fun x => decide (x ≠ quoteChar)) (content ++ [quoteChar] ++ t)
      = quoteChar :: t := by
    rw [List.append_assoc]
    exact dropWhile_append_stop hct hht
  have htw : List.takeWhile (fun x => decide (x ≠ quoteChar)) (content ++ [quoteChar] ++ t)
      = content := by
    rw [List.append_assoc]
    exact takeWhile_append_stop hct hht
  rw [hdw]
  simp only []
  have h20b : 20 ≤ (List.takeWhile (fun x => decide (x ≠ quoteChar))
      (content ++ [quoteChar] ++ t)).length := by
    rw [htw]
    exact h20
  rw [if_pos h20b]


/-- A segment of an error-message template: a shared literal, a hex
address `0x<ds>`, a line marker `line <ds>`, or a long quoted literal
`'<content>'`. -/
inductive Seg where
  | lit (s : List Char)
  | hexHole (ds : List Char)
  | lineHole (ds : List Char)
  | quoteHole (content : List Char)
deriving DecidableEq, Repr

/-- Per-segment well-formedness: holes carry data of the right character
class (hex digits, digits, ≥ 20 apostrophe-free content characters that
embed no other volatile pattern), and shared literals are non-empty and
free of volatile patterns, including dangling prefixes (`0x`, `line `)
that the right context could complete. -/
def Seg.ok : Seg → Prop
  | .lit s => s ≠ [] ∧ NoHexStart s ∧ NoLineStart s ∧ quoteChar ∉ s ∧
      ¬ (['0', 'x'] <:+ s) ∧ ¬ (['l', 'i', 'n', 'e', ' '] <:+ s)
  | .hexHole ds => ds ≠ [] ∧ ∀ c ∈ ds, isHexDig c = true
  | .lineHole ds => ds ≠ [] ∧ ∀ c ∈ ds, c.isDigit = true
  | .quoteHole content => 20 ≤ content.length ∧ quoteChar ∉ content ∧
      NoHexStart content ∧ NoLineStart content

/-- Two segments match when they differ only inside a volatile hole:
same kind, and identical shared literals. -/
def SegMatch : Seg → Seg → Prop
  | .lit s, .lit s2 => s = s2
  | .hexHole _, .hexHole _ => True
  | .lineHole _, .lineHole _ => True
  | .quoteHole _, .quoteHole _ => True
  | _, _ => False

instance : ∀ seg : Seg, Decidable seg.ok := fun seg =>
  match seg with
  | .lit s => inferInstanceAs (Decidable (s ≠ [] ∧ NoHexStart s ∧ NoLineStart s ∧
      quoteChar ∉ s ∧ ¬ (['0', 'x'] <:+ s) ∧ ¬ (['l', 'i', 'n', 'e', ' '] <:+ s)))
  | .hexHole ds => inferInstanceAs (Decidable (ds ≠ [] ∧ ∀ c ∈ ds, isHexDig c = true))
  | .lineHole ds => inferInstanceAs (Decidable (ds ≠ [] ∧ ∀ c ∈ ds, c.isDigit = true))
  | .quoteHole content => inferInstanceAs (Decidable (20 ≤ content.length ∧
      quoteChar ∉ content ∧ NoHexStart content ∧ NoLineStart content))

instance : ∀ a b : Seg, Decidable (SegMatch a b) := fun a b =>
  match a, b with
  | .lit s, .lit s2 => inferInstanceAs (Decidable (s = s2))
  | .lit _, .hexHole _ => inferInstanceAs (Decidable False)
  | .lit _, .lineHole _ => inferInstanceAs (Decidable False)
  | .lit _, .quoteHole _ => inferInstanceAs (Decidable False)
  | .hexHole _, .lit _ => inferInstanceAs (Decidable False)
  | .hexHole _, .hexHole _ => inferInstanceAs (Decidable True)
  | .hexHole _, .lineHole _ => inferInstanceAs (Decidable False)
  | .hexHole _, .quoteHole _ => inferInstanceAs (Decidable False)
  | .lineHole _, .lit _ => inferInstanceAs (Decidable False)
  | .lineHole _, .hexHole _ => inferInstanceAs (Decidable False)
  | .lineHole _, .lineHole _ => inferInstanceAs (Decidable True)
  | .lineHole _, .quoteHole _ => inferInstanceAs (Decidable False)
  | .quoteHole _, .lit _ => inferInstanceAs (Decidable False)
  | .quoteHole _, .hexHole _ => inferInstanceAs (Decidable False)
  | .quoteHole _, .lineHole _ => inferInstanceAs (Decidable False)
  | .quoteHole _, .quoteHole _ => inferInstanceAs (Decidable True)

/-- First character contributed by a segment (the same at every
normalization stage: replacements keep their leading character). -/
def stage1Head : Seg → Option Char
  | .lit s => s.head?
  | .hexHole _ => some '0'
  | .lineHole _ => some 'l'
  | .quoteHole _ => some quoteChar

/-- The character (if any) after a hex hole must not extend its greedy
hex run. -/
def headHexFree : Option Char → Prop
  | some c => isHexDig c = false
  | none => True

/-- The character (if any) after a line hole must neither extend its
digit run nor complete a `0x` from its final digit. -/
def headLineFree : Option Char → Prop
  | some c => c.isDigit = false ∧ c ≠ 'x'
  | none => True

instance : ∀ o : Option Char, Decidable (headHexFree o) := fun o =>
  match o with
  | some c => inferInstanceAs (Decidable (isHexDig c = false))
  | none => inferInstanceAs (Decidable True)

instance : ∀ o : Option Char, Decidable (headLineFree o) := fun o =>
  match o with
  | some c => inferInstanceAs (Decidable (c.isDigit = false ∧ c ≠ 'x'))
  | none => inferInstanceAs (Decidable True)

/-- Boundary condition between consecutive segments: adjacent shared
literals are merged (so a volatile match cannot span a literal/literal
boundary), and a hole is never followed by a character that its greedy
run or a dangling `0x` could absorb. -/
def pairOK : Seg → Seg → Prop
  | .lit _, .lit _ => False
  | .lit _, _ => True
  | .hexHole _, b => headHexFree (stage1Head b)
  | .lineHole _, b => headLineFree (stage1Head b)
  | .quoteHole _, _ => True

instance : ∀ a b : Seg, Decidable (pairOK a b) := fun a b =>
  match a, b with
  | .lit _, .lit _ => inferInstanceAs (Decidable False)
  | .lit _, .hexHole _ => inferInstanceAs (Decidable True)
  | .lit _, .lineHole _ => inferInstanceAs (Decidable True)
  | .lit _, .quoteHole _ => inferInstanceAs (Decidable True)
  | .hexHole _, b => inferInstanceAs (Decidable (headHexFree (stage1Head b)))
  | .lineHole _, b => inferInstanceAs (Decidable (headLineFree (stage1Head b)))
  | .quoteHole _, _ => inferInstanceAs (Decidable True)

/-- Template well-formedness. -/
def SegsWF (l : List Seg) : Prop := (∀ seg ∈ l, seg.ok) ∧ l.Chain' pairOK

instance (l : List Seg) : Decidable (SegsWF l) :=
  inferInstanceAs (Decidable ((∀ seg ∈ l, seg.ok) ∧ l.Chain' pairOK))

/-- The message rendered by a template. -/
def renderSeg1 : Seg → List Char
  | .lit s => s
  | .hexHole ds => '0' :: 'x' :: ds
  | .lineHole ds => 'l' :: 'i' :: 'n' :: 'e' :: ' ' :: ds
  | .quoteHole content => quoteChar :: (content ++ [quoteChar])

/-- The message after the hex-address substitution. -/
def renderSeg2 : Seg → List Char
  | .hexHole _ => ['0', 'x', '.', '.', '.']
  | seg => renderSeg1 seg

/-- The message after the hex-address and line-marker substitutions. -/
def renderSeg3 : Seg → List Char
  | .hexHole _ => ['0', 'x', '.', '.', '.']
  | .lineHole _ => ['l', 'i', 'n', 'e', ' ', 'N']
  | seg => renderSeg1 seg

/-- The fully normalized message (before prefix truncation). -/
def renderSeg4 : Seg → List Char
  | .lit s => s
  | .hexHole _ => ['0', 'x', '.', '.', '.']
  | .lineHole _ => ['l', 'i', 'n', 'e', ' ', 'N']
  | .quoteHole _ => quoteChar :: '.' :: '.' :: '.' :: [quoteChar]

def render1 (l : List Seg) : List Char := l.flatMap renderSeg1

def render2 (l : List Seg) : List Char := l.flatMap renderSeg2

def render3 (l : List Seg) : List Char := l.flatMap renderSeg3

def render4 (l : List Seg) : List Char := l.flatMap renderSeg4

/-- First character of a rendered template. -/
def headOfSegs : List Seg → Option Char
  | [] => none
  | seg :: _ => stage1Head seg

theorem head_append_of_ne_nil {s t : List Char} (h : s ≠ []) :
    (s ++ t).head? = s.head? := by
  cases s with
  | nil => exact absurd rfl h
  | cons c s2 => rfl

theorem renderSeg1_head {seg : Seg} (h : seg.ok) :
    ∀ t, (renderSeg1 seg ++ t).head? = stage1Head seg := by
  intro t
  cases seg with
  | lit s => exact head_append_of_ne_nil h.1
  | hexHole ds => rfl
  | lineHole ds => rfl
  | quoteHole content => rfl

theorem renderSeg2_head {seg : Seg} (h : seg.ok) :
    ∀ t, (renderSeg2 seg ++ t).head? = stage1Head seg := by
  intro t
  cases seg with
  | lit s => exact head_append_of_ne_nil h.1
  | hexHole ds => rfl
  | lineHole ds => rfl
  | quoteHole content => rfl

theorem renderSeg3_head {seg : Seg} (h : seg.ok) :
    ∀ t, (renderSeg3 seg ++ t).head? = stage1Head seg := by
  intro t
  cases seg with
  | lit s => exact head_append_of_ne_nil h.1
  | hexHole ds => rfl
  | lineHole ds => rfl
  | quoteHole content => rfl

theorem render1_head {l : List Seg} (h : ∀ seg ∈ l, seg.ok) :
    (render1 l).head? = headOfSegs l := by
  cases l with
  | nil => rfl
  | cons seg rest =>
    show (renderSeg1 seg ++ render1 rest).head? = stage1Head seg
    exact renderSeg1_head (h seg (by simp)) _

theorem render2_head {l : List Seg} (h : ∀ seg ∈ l, seg.ok) :
    (render2 l).head? = headOfSegs l := by
  cases l with
  | nil => rfl
  | cons seg rest =>
    show (renderSeg2 seg ++ render2 rest).head? = stage1Head seg
    exact renderSeg2_head (h seg (by simp)) _

theorem render3_head {l : List Seg} (h : ∀ seg ∈ l, seg.ok) :
    (render3 l).head? = headOfSegs l := by
  cases l with
  | nil => rfl
  | cons seg rest =>
    show (renderSeg3 seg ++ render3 rest).head? = stage1Head seg
    exact renderSeg3_head (h seg (by simp)) _

theorem render1_ne_nil {l : List Seg} (hne : l ≠ []) (h : ∀ seg ∈ l, seg.ok) :
    render1 l ≠ [] := by
  cases l with
  | nil => exact absurd rfl hne
  | cons seg rest =>
    show renderSeg1 seg ++ render1 rest ≠ []
    cases seg with
    | lit s =>
      have hs : s ≠ [] := (h (Seg.lit s) (by simp)).1
      simpa using fun h1 _ => hs h1
    | hexHole ds => simp [renderSeg1]
    | lineHole ds => simp [renderSeg1]
    | quoteHole content => simp [renderSeg1]

theorem hole_stage1Head {b : Seg} (hb : ∀ s, b ≠ Seg.lit s) :
    stage1Head b = some '0' ∨ stage1Head b = some 'l' ∨ stage1Head b = some quoteChar := by
  cases b with
  | lit s => exact absurd rfl (hb s)
  | hexHole ds => exact Or.inl rfl
  | lineHole ds => exact Or.inr (Or.inl rfl)
  | quoteHole content => exact Or.inr (Or.inr rfl)


theorem NoHexStart_of_not_mem_x {s : List Char} (h : 'x' ∉ s) : NoHexStart s := by
  intro s₁ hs₁
  cases hhs : hexStart s₁ with
  | false => rfl
  | true =>
    exfalso
    obtain ⟨d, r, heq, _⟩ := hexStart_shape hhs
    exact h (((List.mem_tails _ _).mp hs₁).subset (by rw [heq]; simp))

theorem not_mem_x_line {ds : List Char} (hds : ∀ c ∈ ds, c.isDigit = true) :
    'x' ∉ ('l' :: 'i' :: 'n' :: 'e' :: ' ' :: ds) := by
  intro hx
  simp only [List.mem_cons] at hx
  rcases hx with h | h | h | h | h | h
  · exact absurd h (by decide)
  · exact absurd h (by decide)
  · exact absurd h (by decide)
  · exact absurd h (by decide)
  · exact absurd h (by decide)
  · have hd := hds 'x' h
    exact absurd hd (by decide)

theorem headOfSegs_eq {rest : List Seg} {c : Char} (h : headOfSegs rest = some c) :
    ∃ b rest2, rest = b :: rest2 ∧ stage1Head b = some c := by
  cases rest with
  | nil => exact absurd h (by simp [headOfSegs])
  | cons b rest2 => exact ⟨b, rest2, rfl, h⟩

theorem stage1_next_head {seg : Seg} {rest : List Seg} {c : Char}
    (hOK : ∀ sg ∈ rest, sg.ok)
    (hpair : ∀ y ∈ rest.head?, pairOK seg y)
    (hh : (render1 rest).head? = some c) :
    ∃ b, stage1Head b = some c ∧ pairOK seg b := by
  have h2 : headOfSegs rest = some c := by rw [← render1_head hOK]; exact hh
  obtain ⟨b, rest2, hr, hsb⟩ := headOfSegs_eq h2
  refine ⟨b, hsb, hpair b ?_⟩
  rw [hr]
  rfl

theorem stage2_next_head {seg : Seg} {rest : List Seg} {c : Char}
    (hOK : ∀ sg ∈ rest, sg.ok)
    (hpair : ∀ y ∈ rest.head?, pairOK seg y)
    (hh : (render2 rest).head? = some c) :
    ∃ b, stage1Head b = some c ∧ pairOK seg b := by
  have h2 : headOfSegs rest = some c := by rw [← render2_head hOK]; exact hh
  obtain ⟨b, rest2, hr, hsb⟩ := headOfSegs_eq h2
  refine ⟨b, hsb, hpair b ?_⟩
  rw [hr]
  rfl

/-- After a shared literal the next segment is a hole, so the next
rendered character is `0`, `l` or an apostrophe. -/
theorem lit_next_head {s : List Char} {b : Seg} {c : Char}
    (hp : pairOK (Seg.lit s) b) (hc : stage1Head b = some c) :
    c = '0' ∨ c = 'l' ∨ c = quoteChar := by
  cases b with
  | lit s2 => exact hp.elim
  | hexHole ds =>
    rw [stage1Head] at hc
    exact Or.inl (Option.some.inj hc).symm
  | lineHole ds =>
    rw [stage1Head] at hc
    exact Or.inr (Or.inl (Option.some.inj hc).symm)
  | quoteHole content =>
    rw [stage1Head] at hc
    exact Or.inr (Or.inr (Option.some.inj hc).symm)

theorem pairOK_hex_head {ds : List Char} {b : Seg} {c : Char}
    (hp : pairOK (Seg.hexHole ds) b) (hc : stage1Head b = some c) :
    isHexDig c = false := by
  rw [pairOK, hc] at hp
  exact hp

theorem pairOK_line_head {ds : List Char} {b : Seg} {c : Char}
    (hp : pairOK (Seg.lineHole ds) b) (hc : stage1Head b = some c) :
    c.isDigit = false ∧ c ≠ 'x' := by
  rw [pairOK, hc] at hp
  exact hp


/-- Stage 1: the hex-address substitution maps the rendered template to
its hex-replaced render. -/
theorem stage1_subHex : ∀ l : List Seg, SegsWF l → subHex (render1 l) = render2 l := by
  intro l
  induction l with
  | nil =>
    intro _
    rw [show render1 [] = [] from rfl, subHex_nil]
    rfl
  | cons seg rest ih =>
    intro hWF
    obtain ⟨hOK, hchain⟩ := hWF
    rw [List.chain'_cons'] at hchain
    have hOKrest : ∀ sg ∈ rest, sg.ok := fun sg hsg => hOK sg (by simp [hsg])
    have hih := ih ⟨hOKrest, hchain.2⟩
    have hpair : ∀ y ∈ rest.head?, pairOK seg y := hchain.1
    have hsegok := hOK seg (by simp)
    show subHex (renderSeg1 seg ++ render1 rest) = renderSeg2 seg ++ render2 rest
    cases seg with
    | lit s =>
      obtain ⟨hne, hnh, hnl, hnq, hn0x, hnline⟩ := hsegok
      have hskip : subHex (s ++ render1 rest) = s ++ subHex (render1 rest) := by
        refine hex_skip hnh ?_ ?_
        · rintro ⟨hsuf, d, r, heq, hd⟩
          have hh : (render1 rest).head? = some 'x' := by rw [heq]; rfl
          obtain ⟨b, hsb, hp⟩ := stage1_next_head hOKrest hpair hh
          rcases lit_next_head hp hsb with h | h | h
          · exact absurd h (by decide)
          · exact absurd h (by decide)
          · exact absurd h (by decide)
        · rintro ⟨hsuf, _⟩
          exact hn0x hsuf
      rw [show renderSeg1 (Seg.lit s) = s from rfl, hskip, hih]
      rfl
    | hexHole ds =>
      obtain ⟨hne, hds⟩ := hsegok
      have ht : ∀ c, (render1 rest).head? = some c → isHexDig c = false := by
        intro c hc
        obtain ⟨b, hsb, hp⟩ := stage1_next_head hOKrest hpair hc
        exact pairOK_hex_head hp hsb
      rw [show renderSeg1 (Seg.hexHole ds) = ('0' :: 'x' :: ds) from rfl,
        hex_hole hne hds ht, hih]
      rfl
    | lineHole ds =>
      obtain ⟨hne, hds⟩ := hsegok
      have hxmem : 'x' ∉ ('l' :: 'i' :: 'n' :: 'e' :: ' ' :: ds) := not_mem_x_line hds
      have hskip : subHex (('l' :: 'i' :: 'n' :: 'e' :: ' ' :: ds) ++ render1 rest)
          = ('l' :: 'i' :: 'n' :: 'e' :: ' ' :: ds) ++ subHex (render1 rest) := by
        refine hex_skip (NoHexStart_of_not_mem_x hxmem) ?_ ?_
        · rintro ⟨hsuf, d, r, heq, hd⟩
          have hh : (render1 rest).head? = some 'x' := by rw [heq]; rfl
          obtain ⟨b, hsb, hp⟩ := stage1_next_head hOKrest hpair hh
          exact (pairOK_line_head hp hsb).2 rfl
        · rintro ⟨hsuf, _⟩
          exact not_suffix_of_not_mem (by simp) hxmem hsuf
      rw [show renderSeg1 (Seg.lineHole ds) = ('l' :: 'i' :: 'n' :: 'e' :: ' ' :: ds) from rfl,
        hskip, hih]
      rfl
    | quoteHole content =>
      obtain ⟨h20, hqc, hnh, hnl⟩ := hsegok
      have hA : subHex (quoteChar :: (content ++ ([quoteChar] ++ render1 rest)))
          = quoteChar :: subHex (content ++ ([quoteChar] ++ render1 rest)) := by
        refine hex_skip (s := [quoteChar]) (by decide) ?_ ?_
        · rintro ⟨hsuf, _⟩
          exact not_suffix_of_not_mem (c := '0') (by simp) (by decide) hsuf
        · rintro ⟨hsuf, _⟩
          exact not_suffix_of_not_mem (c := 'x') (l := ['0', 'x']) (by simp) (by decide) hsuf
      have hB : subHex (content ++ ([quoteChar] ++ render1 rest))
          = content ++ subHex ([quoteChar] ++ render1 rest) := by
        refine hex_skip hnh ?_ ?_
        · rintro ⟨hsuf, d, r, heq, hd⟩
          simp only [List.cons_append, List.nil_append, List.cons.injEq] at heq
          exact absurd heq.1 (by decide)
        · rintro ⟨hsuf, d, hd, hhex⟩
          simp only [List.cons_append, List.nil_append, List.head?_cons,
            Option.some.injEq] at hd
          rw [← hd] at hhex
          exact absurd hhex (by decide)
      have hC : subHex ([quoteChar] ++ render1 rest)
          = [quoteChar] ++ subHex (render1 rest) := by
        refine hex_skip (s := [quoteChar]) (by decide) ?_ ?_
        · rintro ⟨hsuf, _⟩
          exact not_suffix_of_not_mem (c := '0') (by simp) (by decide) hsuf
        · rintro ⟨hsuf, _⟩
          exact not_suffix_of_not_mem (c := 'x') (l := ['0', 'x']) (by simp) (by decide) hsuf
      show subHex ((quoteChar :: (content ++ [quoteChar])) ++ render1 rest)
          = (quoteChar :: (content ++ [quoteChar])) ++ render2 rest
      rw [List.cons_append, List.append_assoc, hA, hB, hC, hih]
      simp


/-- Stage 2: the `line N` substitution maps the hex-replaced render to
the hex-and-line-replaced render. -/
theorem stage2_subLine : ∀ l : List Seg, SegsWF l → subLine (render2 l) = render3 l := by
  intro l
  induction l with
  | nil =>
    intro _
    rw [show render2 [] = [] from rfl, subLine_nil]
    rfl
  | cons seg rest ih =>
    intro hWF
    obtain ⟨hOK, hchain⟩ := hWF
    rw [List.chain'_cons'] at hchain
    have hOKrest : ∀ sg ∈ rest, sg.ok := fun sg hsg => hOK sg (by simp [hsg])
    have hih := ih ⟨hOKrest, hchain.2⟩
    have hpair : ∀ y ∈ rest.head?, pairOK seg y := hchain.1
    have hsegok := hOK seg (by simp)
    show subLine (renderSeg2 seg ++ render2 rest) = renderSeg3 seg ++ render3 rest
    cases seg with
    | lit s =>
      obtain ⟨hne, hnh, hnl, hnq, hn0x, hnline⟩ := hsegok
      have hhead : ∀ c, (render2 rest).head? = some c →
          c = '0' ∨ c = 'l' ∨ c = quoteChar := by
        intro c hc
        obtain ⟨b, hsb, hp⟩ := stage2_next_head hOKrest hpair hc
        exact lit_next_head hp hsb
      have hskip : subLine (s ++ render2 rest) = s ++ subLine (render2 rest) := by
        refine line_skip hnl ?_ ?_ ?_ ?_ ?_
        · rintro ⟨hsuf, d, r, heq, hd⟩
          have hh : (render2 rest).head? = some 'i' := by rw [heq]; rfl
          rcases hhead 'i' hh with h | h | h
          · exact absurd h (by decide)
          · exact absurd h (by decide)
          · exact absurd h (by decide)
        · rintro ⟨hsuf, d, r, heq, hd⟩
          have hh : (render2 rest).head? = some 'n' := by rw [heq]; rfl
          rcases hhead 'n' hh with h | h | h
          · exact absurd h (by decide)
          · exact absurd h (by decide)
          · exact absurd h (by decide)
        · rintro ⟨hsuf, d, r, heq, hd⟩
          have hh : (render2 rest).head? = some 'e' := by rw [heq]; rfl
          rcases hhead 'e' hh with h | h | h
          · exact absurd h (by decide)
          · exact absurd h (by decide)
          · exact absurd h (by decide)
        · rintro ⟨hsuf, d, r, heq, hd⟩
          have hh : (render2 rest).head? = some ' ' := by rw [heq]; rfl
          rcases hhead ' ' hh with h | h | h
          · exact absurd h (by decide)
          · exact absurd h (by decide)
          · exact absurd h (by decide)
        · rintro ⟨hsuf, _⟩
          exact hnline hsuf
      rw [show renderSeg2 (Seg.lit s) = s from rfl, hskip, hih]
      rfl
    | hexHole ds =>
      have hskip : subLine (['0', 'x', '.', '.', '.'] ++ render2 rest)
          = ['0', 'x', '.', '.', '.'] ++ subLine (render2 rest) := by
        refine line_skip (by decide) ?_ ?_ ?_ ?_ ?_
        · rintro ⟨hsuf, _⟩
          exact not_suffix_of_not_mem (c := 'l') (by simp) (by decide) hsuf
        · rintro ⟨hsuf, _⟩
          exact not_suffix_of_not_mem (c := 'l') (by simp) (by decide) hsuf
        · rintro ⟨hsuf, _⟩
          exact not_suffix_of_not_mem (c := 'l') (by simp) (by decide) hsuf
        · rintro ⟨hsuf, _⟩
          exact not_suffix_of_not_mem (c := 'l') (by simp) (by decide) hsuf
        · rintro ⟨hsuf, _⟩
          exact not_suffix_of_not_mem (c := 'l') (by simp) (by decide) hsuf
      rw [show renderSeg2 (Seg.hexHole ds) = ['0', 'x', '.', '.', '.'] from rfl, hskip, hih]
      rfl
    | lineHole ds =>
      obtain ⟨hne, hds⟩ := hsegok
      have ht : ∀ c, (render2 rest).head? = some c → c.isDigit = false := by
        intro c hc
        obtain ⟨b, hsb, hp⟩ := stage2_next_head hOKrest hpair hc
        exact (pairOK_line_head hp hsb).1
      rw [show renderSeg2 (Seg.lineHole ds) = ('l' :: 'i' :: 'n' :: 'e' :: ' ' :: ds) from rfl,
        line_hole hne hds ht, hih]
      rfl
    | quoteHole content =>
      obtain ⟨h20, hqc, hnh, hnl⟩ := hsegok
      have hA : subLine (quoteChar :: (content ++ ([quoteChar] ++ render2 rest)))
          = quoteChar :: subLine (content ++ ([quoteChar] ++ render2 rest)) := by
        refine line_skip (s := [quoteChar]) (by decide) ?_ ?_ ?_ ?_ ?_
        · rintro ⟨hsuf, _⟩
          exact not_suffix_of_not_mem (c := 'l') (by simp) (by decide) hsuf
        · rintro ⟨hsuf, _⟩
          exact not_suffix_of_not_mem (c := 'l') (by simp) (by decide) hsuf
        · rintro ⟨hsuf, _⟩
          exact not_suffix_of_not_mem (c := 'l') (by simp) (by decide) hsuf
        · rintro ⟨hsuf, _⟩
          exact not_suffix_of_not_mem (c := 'l') (by simp) (by decide) hsuf
        · rintro ⟨hsuf, _⟩
          exact not_suffix_of_not_mem (c := 'l') (by simp) (by decide) hsuf
      have hB : subLine (content ++ ([quoteChar] ++ render2 rest))
          = content ++ subLine ([quoteChar] ++ render2 rest) := by
        refine line_skip hnl ?_ ?_ ?_ ?_ ?_
        · rintro ⟨hsuf, d, r, heq, hd⟩
          simp only [List.cons_append, List.nil_append, List.cons.injEq] at heq
          exact absurd heq.1 (by decide)
        · rintro ⟨hsuf, d, r, heq, hd⟩
          simp only [List.cons_append, List.nil_append, List.cons.injEq] at heq
          exact absurd heq.1 (by decide)
        · rintro ⟨hsuf, d, r, heq, hd⟩
          simp only [List.cons_append, List.nil_append, List.cons.injEq] at heq
          exact absurd heq.1 (by decide)
        · rintro ⟨hsuf, d, r, heq, hd⟩
          simp only [List.cons_append, List.nil_append, List.cons.injEq] at heq
          exact absurd heq.1 (by decide)
        · rintro ⟨hsuf, d, r, heq, hd⟩
          simp only [List.cons_append, List.nil_append, List.cons.injEq] at heq
          rw [← heq.1] at hd
          exact absurd hd (by decide)
      have hC : subLine ([quoteChar] ++ render2 rest)
          = [quoteChar] ++ subLine (render2 rest) := by
        refine line_skip (s := [quoteChar]) (by decide) ?_ ?_ ?_ ?_ ?_
        · rintro ⟨hsuf, _⟩
          exact not_suffix_of_not_mem (c := 'l') (by simp) (by decide) hsuf
        · rintro ⟨hsuf, _⟩
          exact not_suffix_of_not_mem (c := 'l') (by simp) (by decide) hsuf
        · rintro ⟨hsuf, _⟩
          exact not_suffix_of_not_mem (c := 'l') (by simp) (by decide) hsuf
        · rintro ⟨hsuf, _⟩
          exact not_suffix_of_not_mem (c := 'l') (by simp) (by decide) hsuf
        · rintro ⟨hsuf, _⟩
          exact not_suffix_of_not_mem (c := 'l') (by simp) (by decide) hsuf
      show subLine ((quoteChar :: (content ++ [quoteChar])) ++ render2 rest)
          = (quoteChar :: (content ++ [quoteChar])) ++ render3 rest
      rw [List.cons_append, List.append_assoc, hA, hB, hC, hih]
      simp

/-- Stage 3: the quoted-literal substitution maps the hex-and-line
replaced render to the fully normalized render. -/
theorem stage3_subQuote : ∀ l : List Seg, SegsWF l → subQuote (render3 l) = render4 l := by
  intro l
  induction l with
  | nil =>
    intro _
    rw [show render3 [] = [] from rfl, subQuote_nil]
    rfl
  | cons seg rest ih =>
    intro hWF
    obtain ⟨hOK, hchain⟩ := hWF
    rw [List.chain'_cons'] at hchain
    have hOKrest : ∀ sg ∈ rest, sg.ok := fun sg hsg => hOK sg (by simp [hsg])
    have hih := ih ⟨hOKrest, hchain.2⟩
    have hsegok := hOK seg (by simp)
    show subQuote (renderSeg3 seg ++ render3 rest) = renderSeg4 seg ++ render4 rest
    cases seg with
    | lit s =>
      obtain ⟨hne, hnh, hnl, hnq, hn0x, hnline⟩ := hsegok
      rw [show renderSeg3 (Seg.lit s) = s from rfl, quote_skip hnq, hih]
      rfl
    | hexHole ds =>
      rw [show renderSeg3 (Seg.hexHole ds) = ['0', 'x', '.', '.', '.'] from rfl,
        quote_skip (by decide), hih]
      rfl
    | lineHole ds =>
      rw [show renderSeg3 (Seg.lineHole ds) = ['l', 'i', 'n', 'e', ' ', 'N'] from rfl,
        quote_skip (by decide), hih]
      rfl
    | quoteHole content =>
      obtain ⟨h20, hqc, hnh, hnl⟩ := hsegok
      rw [show renderSeg3 (Seg.quoteHole content) = (quoteChar :: (content ++ [quoteChar]))
        from rfl, quote_hole h20 hqc, hih]
      rfl

/-- Matched templates have identical fully normalized renders. -/
theorem render4_match : ∀ {l1 l2 : List Seg}, List.Forall₂ SegMatch l1 l2 →
    render4 l1 = render4 l2 := by
  intro l1 l2 h
  induction h with
  | nil => rfl
  | @cons a b as bs hab htail ih =>
    show renderSeg4 a ++ render4 as = renderSeg4 b ++ render4 bs
    rw [ih]
    cases a <;> cases b <;> first
      | exact hab.elim
      | rfl
      | (rw [show SegMatch _ _ = _ from rfl] at hab; rw [hab])

/-- The rendered template, normalized end to end. -/
theorem render_normalize {l : List Seg} (hWF : SegsWF l) :
    subQuote (subLine (subHex (render1 l))) = render4 l := by
  rw [stage1_subHex l hWF, stage2_subLine l hWF, stage3_subQuote l hWF]


theorem updateBucket_count (ac : List String) (code m now : String) (b : ErrorPattern) :
    (updateBucket ac code m now b).count = b.count + 1 := by
  simp only [updateBucket]
  split <;> rfl

theorem strTruthy_mk_of_ne_nil {r : List Char} (h : r ≠ []) :
    strTruthy (some (String.mk r)) = true := by
  show (!(String.mk r == "")) = true
  cases hb : String.mk r == "" with
  | false => rfl
  | true =>
    exfalso
    exact h (congrArg String.data (eq_of_beq hb))

/-- **C5** (amended).  (i) Two error messages that are instantiations of
a common well-formed template — identical shared literals around
hexadecimal-address holes, `line N` holes and quoted-literal holes of at
least 20 content characters — normalize to the same bucket key; (ii)
recording both as failures from the empty store therefore yields a
single error bucket whose count is 2, not two buckets; (iii) a message
with no hex-address start, no `line N` start and no closed quoted
literal of 20 or more content characters is preserved verbatim up to the
100-character key prefix.  (The original claim said quoted literals "of
20 or fewer characters" are preserved; the scanner replaces literals
with 20 content characters, so the amended bound is 19 or fewer — see
the counterexample.) -/
theorem error_normalization_template_invariant :
    (∀ l1 l2 : List Seg, SegsWF l1 → SegsWF l2 → List.Forall₂ SegMatch l1 l2 →
      normalize_error (String.mk (render1 l1)) = normalize_error (String.mk (render1 l2)))
    ∧
    (∀ l1 l2 : List Seg, SegsWF l1 → SegsWF l2 → List.Forall₂ SegMatch l1 l2 → l1 ≠ [] →
      ∀ (ac1 ac2 : List String) (code1 code2 now1 now2 : String) (et1 et2 : Option String),
      ∃ b : ErrorPattern,
        (record_operation ac2 code2 false (some (String.mk (render1 l2))) et2 now2
          (record_operation ac1 code1 false (some (String.mk (render1 l1))) et1 now1
            Patterns.empty)).error_patterns
          = [(normalize_error (String.mk (render1 l1)), b)] ∧ b.count = 2)
    ∧
    (∀ m : List Char, NoHexStart m → NoLineStart m → NoLongQuote m →
      normalize_error (String.mk m) = String.mk (m.take 100)) := by
  have key : ∀ l1 l2 : List Seg, SegsWF l1 → SegsWF l2 → List.Forall₂ SegMatch l1 l2 →
      normalize_error (String.mk (render1 l1)) = normalize_error (String.mk (render1 l2)) := by
    intro l1 l2 h1 h2 hm
    show String.mk ((subQuote (subLine (subHex (render1 l1)))).take 100)
        = String.mk ((subQuote (subLine (subHex (render1 l2)))).take 100)
    rw [render_normalize h1, render_normalize h2, render4_match hm]
  refine ⟨key, ?_, ?_⟩
  · intro l1 l2 h1 h2 hm hne ac1 ac2 code1 code2 now1 now2 et1 et2
    have hne2 : l2 ≠ [] := by
      cases hm with
      | nil => exact absurd rfl hne
      | cons _ _ => simp
    have hr1 : render1 l1 ≠ [] := render1_ne_nil hne h1.1
    have hr2 : render1 l2 ≠ [] := render1_ne_nil hne2 h2.1
    have hT1 := strTruthy_mk_of_ne_nil hr1
    have hT2 := strTruthy_mk_of_ne_nil hr2
    have hp1 : (record_operation ac1 code1 false (some (String.mk (render1 l1))) et1 now1
        Patterns.empty).error_patterns
        = [(normalize_error (String.mk (render1 l1)),
            updateBucket ac1 code1 (String.mk (render1 l1)) now1 (ErrorPattern.init now1))] := by
      simp [record_operation, hT1, Patterns.empty, updateA]
    have hp2 : (record_operation ac2 code2 false (some (String.mk (render1 l2))) et2 now2
        (record_operation ac1 code1 false (some (String.mk (render1 l1))) et1 now1
          Patterns.empty)).error_patterns
        = updateA (normalize_error (String.mk (render1 l2)))
            (ErrorPattern.init now2)
            (updateBucket ac2 code2 (String.mk (render1 l2)) now2)
            (record_operation ac1 code1 false (some (String.mk (render1 l1))) et1 now1
              Patterns.empty).error_patterns := by
      simp [record_operation, hT2]
    refine ⟨updateBucket ac2 code2 (String.mk (render1 l2)) now2
      (updateBucket ac1 code1 (String.mk (render1 l1)) now1 (ErrorPattern.init now1)), ?_, ?_⟩
    · rw [hp2, hp1, ← key l1 l2 h1 h2 hm]
      simp [updateA]
    · rw [updateBucket_count, updateBucket_count]
      rfl
  · intro m hh hl hq
    show String.mk ((subQuote (subLine (subHex m))).take 100) = String.mk (m.take 100)
    rw [subHex_eq_self hh, subLine_eq_self hl, subQuote_eq_self hq]

/-- **C5** counterexample to the original wording: a quoted literal with
exactly 20 content characters (so "20 or fewer") is *not* preserved —
the scanner pattern requires 20 or more content characters, so the
normalized key differs from the raw message even though the message is
shorter than the 100-character prefix. -/
theorem error_normalization_counterexample :
    (List.replicate 20 'a').length = 20 ∧
    normalize_error
        (String.mk (['e', ' '] ++ (quoteChar :: (List.replicate 20 'a' ++ [quoteChar]))))
      ≠ String.mk (['e', ' '] ++ (quoteChar :: (List.replicate 20 'a' ++ [quoteChar]))) := by
  constructor
  · rfl
  · have hhole : subQuote (quoteChar :: (List.replicate 20 'a' ++ [quoteChar]))
        = quoteChar :: '.' :: '.' :: '.' :: quoteChar :: subQuote [] := by
      have hstep := @quote_hole (List.replicate 20 'a') []
        (by decide) (by decide)
      rw [List.append_nil] at hstep
      exact hstep
    have hnorm : normalize_error
        (String.mk (['e', ' '] ++ (quoteChar :: (List.replicate 20 'a' ++ [quoteChar]))))
        = String.mk ['e', ' ', quoteChar, '.', '.', '.', quoteChar] := by
      show String.mk ((subQuote (subLine (subHex
          (['e', ' '] ++ (quoteChar :: (List.replicate 20 'a' ++ [quoteChar])))))).take 100)
          = String.mk ['e', ' ', quoteChar, '.', '.', '.', quoteChar]
      rw [subHex_eq_self (by decide), subLine_eq_self (by decide),
        quote_skip (s := ['e', ' ']) (by decide), hhole, subQuote_nil]
      rfl
    rw [hnorm]
    intro hc
    have hdata := congrArg String.data hc
    simp only [] at hdata
    exact absurd hdata (by decide)


/-- Two concrete instantiations of one template: `error at 0x1A, line 42`
and `error at 0xFF, line 7`. -/
def demoTemplate1 : List Seg :=
  [Seg.lit ['e', 'r', 'r', 'o', 'r', ' ', 'a', 't', ' '], Seg.hexHole ['1', 'A'],
   Seg.lit [',', ' '], Seg.lineHole ['4', '2']]

def demoTemplate2 : List Seg :=
  [Seg.lit ['e', 'r', 'r', 'o', 'r', ' ', 'a', 't', ' '], Seg.hexHole ['F', 'F'],
   Seg.lit [',', ' '], Seg.lineHole ['7']]

theorem error_normalization_template_invariant_witness :
    normalize_error (String.mk (render1 demoTemplate1))
      = normalize_error (String.mk (render1 demoTemplate2)) ∧
    (∃ b : ErrorPattern,
      (record_operation [] "code2" false (some (String.mk (render1 demoTemplate2))) none "t2"
        (record_operation [] "code1" false (some (String.mk (render1 demoTemplate1))) none "t1"
          Patterns.empty)).error_patterns
        = [(normalize_error (String.mk (render1 demoTemplate1)), b)] ∧ b.count = 2) ∧
    normalize_error (String.mk ['o', 'k']) = String.mk (['o', 'k'].take 100) :=
  ⟨error_normalization_template_invariant.1 demoTemplate1 demoTemplate2
      ⟨by decide, .cons True.intro (.cons (by decide) (.cons True.intro .nil))⟩
      ⟨by decide, .cons True.intro (.cons (by decide) (.cons True.intro .nil))⟩
      (.cons rfl (.cons True.intro (.cons rfl (.cons True.intro .nil)))),
   error_normalization_template_invariant.2.1 demoTemplate1 demoTemplate2
      ⟨by decide, .cons True.intro (.cons (by decide) (.cons True.intro .nil))⟩
      ⟨by decide, .cons True.intro (.cons (by decide) (.cons True.intro .nil))⟩
      (.cons rfl (.cons True.intro (.cons rfl (.cons True.intro .nil))))
      (by decide) [] [] "code1" "code2" "t1" "t2" none none,
   error_normalization_template_invariant.2.2 ['o', 'k'] (by decide) (by decide) (by decide)⟩

end FlexTools
